import Mathlib

/-!
The fire-risk front end of ffp-interface (`main.go`).

A shallow embedding of the two HTTP handlers of `main.go` and of the parts of
the Go standard library they call (`encoding/json`, `unicode/utf8`,
`net/http`), followed by the properties of the handlers.

Bytes are natural numbers (below 256 on the wire); a Go `string` or `[]byte`
is a list of them.
-/

namespace Proxy

/-- A Go byte string. -/
abbrev Bytes := List Nat

/-- The bytes of an ASCII string constant. -/
def ascii (s : String) : Bytes := s.data.map Char.toNat

/-! ## unicode/utf8 -/

/-- The rune `utf8.RuneError` (U+FFFD). -/
def RuneError : Nat := 0xFFFD

/-- A continuation byte: between `locb` (0x80) and `hicb` (0xBF). -/
def isCont (b : Nat) : Bool := decide (0x80 ≤ b ∧ b ≤ 0xBF)

/-- Go `utf8.DecodeRune`: the first rune of `p` and its width in bytes.  An
invalid or short encoding gives `(RuneError, 1)`, the empty input
`(RuneError, 0)`.  The masks and shifts of the Go code are written with `%`
and `*` (the shifted fields do not overlap). -/
def DecodeRune : Bytes → Nat × Nat
  | [] => (RuneError, 0)
  | p0 :: rest =>
    if p0 < 0x80 then (p0, 1)
    else if 0xC2 ≤ p0 ∧ p0 ≤ 0xDF then
      match rest with
      | b1 :: _ =>
        if isCont b1 then ((p0 % 32) * 64 + b1 % 64, 2) else (RuneError, 1)
      | _ => (RuneError, 1)
    else if 0xE0 ≤ p0 ∧ p0 ≤ 0xEF then
      match rest with
      | b1 :: b2 :: _ =>
        let lo := if p0 = 0xE0 then 0xA0 else 0x80
        let hi := if p0 = 0xED then 0x9F else 0xBF
        if b1 < lo ∨ hi < b1 then (RuneError, 1)
        else if !isCont b2 then (RuneError, 1)
        else ((p0 % 16) * 4096 + (b1 % 64) * 64 + b2 % 64, 3)
      | _ => (RuneError, 1)
    else if 0xF0 ≤ p0 ∧ p0 ≤ 0xF4 then
      match rest with
      | b1 :: b2 :: b3 :: _ =>
        let lo := if p0 = 0xF0 then 0x90 else 0x80
        let hi := if p0 = 0xF4 then 0x8F else 0xBF
        if b1 < lo ∨ hi < b1 then (RuneError, 1)
        else if !isCont b2 then (RuneError, 1)
        else if !isCont b3 then (RuneError, 1)
        else ((p0 % 8) * 262144 + (b1 % 64) * 4096 + (b2 % 64) * 64 + b3 % 64, 4)
      | _ => (RuneError, 1)
    else (RuneError, 1)

/-- Go `utf8.EncodeRune` (as `utf8.AppendRune` onto the empty slice): a
surrogate or a value past `utf8.MaxRune` is encoded as `RuneError`. -/
def EncodeRune (r : Nat) : Bytes :=
  if r ≤ 0x7F then [r]
  else if r ≤ 0x7FF then [0xC0 + r / 64, 0x80 + r % 64]
  else
    let r := if 0x10FFFF < r ∨ (0xD800 ≤ r ∧ r ≤ 0xDFFF) then RuneError else r
    if r ≤ 0xFFFF then [0xE0 + r / 4096, 0x80 + (r / 64) % 64, 0x80 + r % 64]
    else [0xF0 + r / 262144, 0x80 + (r / 4096) % 64, 0x80 + (r / 64) % 64, 0x80 + r % 64]

/-! ## encoding/json: the scanner

`Decoder.Decode` first reads one whole JSON value off the stream with the
scanner state machine (`Decoder.readValue`), then unmarshals those bytes.  The
scanner is embedded as a reader that returns the syntax tree of the value it
accepted together with the bytes that follow it. -/

/-- The outcome of a stage of decoding.  `outOfFuel` is an artefact of the
embedding (recursion on a counter) and is shown never to occur. -/
inductive Res (α : Type) where
  | ok (a : α)
  | invalid
  | outOfFuel
  deriving DecidableEq, Repr

/-- Apply a function to a successful outcome. -/
def Res.map {α β : Type} (f : α → β) : Res α → Res β
  | .ok a => .ok (f a)
  | .invalid => .invalid
  | .outOfFuel => .outOfFuel

/-- Sequence two stages. -/
def Res.bind {α β : Type} (r : Res α) (f : α → Res β) : Res β :=
  match r with
  | .ok a => f a
  | .invalid => .invalid
  | .outOfFuel => .outOfFuel

/-- A JSON value as the scanner delimits it.  Numbers and strings keep their
literal bytes (a string without its quotes); the decoder interprets them. -/
inductive Json where
  | null
  | bool (b : Bool)
  | num (lit : Bytes)
  | str (raw : Bytes)
  | arr (elems : List Json)
  | obj (members : List (Bytes × Json))

/-- Go `isSpace` of scanner.go. -/
def isSpace (c : Nat) : Bool := decide (c = 32 ∨ c = 9 ∨ c = 13 ∨ c = 10)

/-- Drop leading white space (`scanSkipSpace`). -/
def skipSpace : Bytes → Bytes
  | [] => []
  | c :: cs => if isSpace c then skipSpace cs else c :: cs

/-- An ASCII digit. -/
def isDigit (c : Nat) : Bool := decide (48 ≤ c ∧ c ≤ 57)

/-- A hexadecimal digit, as `stateInStringEscU` accepts it. -/
def isHex (c : Nat) : Bool :=
  decide ((48 ≤ c ∧ c ≤ 57) ∨ (97 ≤ c ∧ c ≤ 102) ∨ (65 ≤ c ∧ c ≤ 70))

/-- The character after a backslash that `stateInStringEsc` accepts, `u`
apart: one of `b f n r t \ / "`. -/
def isEscChar (c : Nat) : Bool :=
  decide (c = 98 ∨ c = 102 ∨ c = 110 ∨ c = 114 ∨ c = 116 ∨ c = 92 ∨ c = 47 ∨ c = 34)

/-- States of the scanner inside a string literal. -/
inductive StrState where
  | inString
  | esc
  | escU (seen : Nat)
  deriving DecidableEq

/-- The scanner inside a string literal (`stateInString`, `stateInStringEsc`,
`stateInStringEscU`..`U123`), entered after the opening quote: the bytes up
to the closing quote and the bytes after it. -/
def scanString : StrState → Bytes → Option (Bytes × Bytes)
  | _, [] => none
  | .inString, c :: cs =>
    if c = 34 then some ([], cs)
    else if c = 92 then (scanString .esc cs).map fun p => (c :: p.1, p.2)
    else if c < 32 then none
    else (scanString .inString cs).map fun p => (c :: p.1, p.2)
  | .esc, c :: cs =>
    if c = 117 then (scanString (.escU 0) cs).map fun p => (c :: p.1, p.2)
    else if isEscChar c then (scanString .inString cs).map fun p => (c :: p.1, p.2)
    else none
  | .escU k, c :: cs =>
    if isHex c then
      (scanString (if k < 3 then .escU (k + 1) else .inString) cs).map
        fun p => (c :: p.1, p.2)
    else none

/-- States of the scanner inside a number (`stateNeg`, `state0`, `state1`,
`stateDot`, `stateDot0`, `stateE`, `stateESign`, `stateE0`). -/
inductive NumState where
  | neg | zero | one | dot | dot0 | e | eSign | e0
  deriving DecidableEq

/-- Whether the number may end in this state. -/
def NumState.accepting : NumState → Bool
  | .zero | .one | .dot0 | .e0 => true
  | _ => false

/-- One step of the number states: the next state, or `none` when the byte
does not continue the number. -/
def NumState.step (s : NumState) (c : Nat) : Option NumState :=
  match s with
  | .neg => if c = 48 then some .zero else if 49 ≤ c ∧ c ≤ 57 then some .one else none
  | .one => if isDigit c then some .one
            else if c = 46 then some .dot
            else if c = 101 ∨ c = 69 then some .e else none
  | .zero => if c = 46 then some .dot
             else if c = 101 ∨ c = 69 then some .e else none
  | .dot => if isDigit c then some .dot0 else none
  | .dot0 => if isDigit c then some .dot0
             else if c = 101 ∨ c = 69 then some .e else none
  | .e => if c = 43 ∨ c = 45 then some .eSign
          else if isDigit c then some .e0 else none
  | .eSign => if isDigit c then some .e0 else none
  | .e0 => if isDigit c then some .e0 else none

/-- The scanner inside a number, entered after its first byte: the remaining
bytes of the literal and what follows.  A number ends before the first byte
that does not continue it, or at the end of the input. -/
def scanNumber : NumState → Bytes → Option (Bytes × Bytes)
  | s, [] => if s.accepting then some ([], []) else none
  | s, c :: cs =>
    match s.step c with
    | some s' => (scanNumber s' cs).map fun p => (c :: p.1, p.2)
    | none => if s.accepting then some ([], c :: cs) else none

/-- Go `maxNestingDepth` of scanner.go. -/
def maxNestingDepth : Nat := 10000

/-- The elements of an array after its first position: values separated by
commas up to the closing bracket (`stateEndValue` in `parseArrayValue`). -/
def parseElems (pv : Bytes → Res (Json × Bytes)) : Nat → Bytes → Res (List Json × Bytes)
  | 0, _ => .outOfFuel
  | n + 1, bs =>
    match pv bs with
    | .ok (j, rest) =>
      match skipSpace rest with
      | [] => .invalid
      | c :: rest' =>
        if c = 44 then (parseElems pv n rest').map fun p => (j :: p.1, p.2)
        else if c = 93 then .ok ([j], rest')
        else .invalid
    | .invalid => .invalid
    | .outOfFuel => .outOfFuel

/-- The members of an object from the position of a key: `"key" : value`
separated by commas up to the closing brace (`stateBeginString`,
`stateEndValue` in `parseObjectKey` and `parseObjectValue`). -/
def parseMembers (pv : Bytes → Res (Json × Bytes)) :
    Nat → Bytes → Res (List (Bytes × Json) × Bytes)
  | 0, _ => .outOfFuel
  | n + 1, bs =>
    match skipSpace bs with
    | [] => .invalid
    | q :: afterQ =>
      if q = 34 then
        match scanString .inString afterQ with
        | none => .invalid
        | some (key, afterKey) =>
          match skipSpace afterKey with
          | [] => .invalid
          | colon :: afterColon =>
            if colon = 58 then
              match pv afterColon with
              | .ok (j, rest) =>
                match skipSpace rest with
                | [] => .invalid
                | c :: rest' =>
                  if c = 44 then
                    (parseMembers pv n rest').map fun p => ((key, j) :: p.1, p.2)
                  else if c = 125 then .ok ([(key, j)], rest')
                  else .invalid
              | .invalid => .invalid
              | .outOfFuel => .outOfFuel
            else .invalid
      else .invalid

/-- Read the fixed tail of a literal (`true`, `false`, `null`). -/
def expectBytes : Bytes → Bytes → Option Bytes
  | [], bs => some bs
  | _ :: _, [] => none
  | e :: es, c :: cs => if c = e then expectBytes es cs else none

/-- The scanner on a value that opens no array or object (`stateBeginValue`
on a quote, a sign, a digit or the first letter of a literal): the value that
starts with the byte `c` and the bytes after it. -/
def parseScalar (c : Nat) (cs : Bytes) : Res (Json × Bytes) :=
  if c = 34 then
    match scanString .inString cs with
    | some (raw, rest) => .ok (.str raw, rest)
    | none => .invalid
  else if c = 45 then
    match scanNumber .neg cs with
    | some (lit, rest) => .ok (.num (c :: lit), rest)
    | none => .invalid
  else if c = 48 then
    match scanNumber .zero cs with
    | some (lit, rest) => .ok (.num (c :: lit), rest)
    | none => .invalid
  else if 49 ≤ c ∧ c ≤ 57 then
    match scanNumber .one cs with
    | some (lit, rest) => .ok (.num (c :: lit), rest)
    | none => .invalid
  else if c = 116 then
    match expectBytes [114, 117, 101] cs with
    | some rest => .ok (.bool true, rest)
    | none => .invalid
  else if c = 102 then
    match expectBytes [97, 108, 115, 101] cs with
    | some rest => .ok (.bool false, rest)
    | none => .invalid
  else if c = 110 then
    match expectBytes [117, 108, 108] cs with
    | some rest => .ok (.null, rest)
    | none => .invalid
  else .invalid

/-- The scanner on one value (`stateBeginValue` and what it enters), at
nesting depth `depth`: the value and the bytes after it. -/
def parseValue : Nat → Nat → Bytes → Res (Json × Bytes)
  | 0, _, _ => .outOfFuel
  | fuel + 1, depth, bs =>
    match skipSpace bs with
    | [] => .invalid
    | c :: cs =>
      if c = 123 then
        if depth < maxNestingDepth then
          match skipSpace cs with
          | [] => .invalid
          | d :: ds =>
            if d = 125 then .ok (.obj [], ds)
            else (parseMembers (parseValue fuel (depth + 1)) fuel (d :: ds)).map
              fun p => (.obj p.1, p.2)
        else .invalid
      else if c = 91 then
        if depth < maxNestingDepth then
          match skipSpace cs with
          | [] => .invalid
          | d :: ds =>
            if d = 93 then .ok (.arr [], ds)
            else (parseElems (parseValue fuel (depth + 1)) fuel (d :: ds)).map
              fun p => (.arr p.1, p.2)
        else .invalid
      else parseScalar c cs

/-- Go `Decoder.readValue` on a body read to its end: the first JSON value of
the stream.  The bytes after the value are left unread. -/
def readValue (body : Bytes) : Res (Json × Bytes) :=
  parseValue (body.length + 1) 0 body

/-! ## encoding/json: string literals -/

/-- The value of a hexadecimal digit (`getu4`). -/
def hexVal (c : Nat) : Option Nat :=
  if 48 ≤ c ∧ c ≤ 57 then some (c - 48)
  else if 97 ≤ c ∧ c ≤ 102 then some (c - 97 + 10)
  else if 65 ≤ c ∧ c ≤ 70 then some (c - 65 + 10)
  else none

/-- Go `getu4`: the rune of a leading `\uXXXX` escape, `none` for Go's `-1`. -/
def getu4 : Bytes → Option Nat
  | 92 :: 117 :: a :: b :: c :: d :: _ =>
    match hexVal a, hexVal b, hexVal c, hexVal d with
    | some x, some y, some z, some w => some (((x * 16 + y) * 16 + z) * 16 + w)
    | _, _, _, _ => none
  | _ => none

/-- Go `utf16.IsSurrogate`. -/
def isSurrogate (r : Nat) : Bool := decide (0xD800 ≤ r ∧ r < 0xE000)

/-- Go `utf16.DecodeRune`, on the result of a second `getu4`: the rune of a
surrogate pair, `RuneError` (`unicode.ReplacementChar`) otherwise. -/
def utf16DecodeRune (r1 : Nat) (r2 : Option Nat) : Nat :=
  match r2 with
  | some r2 =>
    if 0xD800 ≤ r1 ∧ r1 < 0xDC00 ∧ 0xDC00 ≤ r2 ∧ r2 < 0xE000 then
      (r1 - 0xD800) * 1024 + (r2 - 0xDC00) + 0x10000
    else RuneError
  | none => RuneError

/-- The byte a two-character escape stands for in `unquoteBytes`. -/
def unescapeByte (e : Nat) : Option Nat :=
  if e = 34 ∨ e = 92 ∨ e = 47 ∨ e = 39 then some e
  else if e = 98 then some 8
  else if e = 102 then some 12
  else if e = 110 then some 10
  else if e = 114 then some 13
  else if e = 116 then some 9
  else none

/-- The loop of Go `unquoteBytes` over the bytes between the quotes.  The
first argument counts bytes still to pass over: the rest of an escape or of a
multi-byte rune already handled at its first byte.  Malformed UTF-8 and
unpaired surrogates become U+FFFD. -/
def unquoteLoop : Nat → Bytes → Option Bytes
  | _, [] => some []
  | skip + 1, _ :: cs => unquoteLoop skip cs
  | 0, c :: cs =>
    if c = 92 then
      match cs with
      | [] => none
      | e :: _ =>
        if e = 117 then
          match getu4 (c :: cs) with
          | none => none
          | some rr =>
            if isSurrogate rr then
              let dec := utf16DecodeRune rr (getu4 (cs.drop 5))
              if dec ≠ RuneError then (unquoteLoop 11 cs).map fun out => EncodeRune dec ++ out
              else (unquoteLoop 5 cs).map fun out => EncodeRune RuneError ++ out
            else (unquoteLoop 5 cs).map fun out => EncodeRune rr ++ out
        else
          match unescapeByte e with
          | some b => (unquoteLoop 1 cs).map fun out => b :: out
          | none => none
    else if c = 34 ∨ c < 32 then none
    else if c < 0x80 then (unquoteLoop 0 cs).map fun out => c :: out
    else
      let d := DecodeRune (c :: cs)
      (unquoteLoop (d.2 - 1) cs).map fun out => EncodeRune d.1 ++ out

/-- Go `unquoteBytes` on the bytes between the quotes of a literal. -/
def unquote (raw : Bytes) : Option Bytes := unquoteLoop 0 raw

/-- Go `htmlSafeSet`: the ASCII bytes `appendString` copies unescaped. -/
def htmlSafe (b : Nat) : Bool :=
  decide (32 ≤ b ∧ b < 0x80 ∧ b ≠ 34 ∧ b ≠ 38 ∧ b ≠ 60 ∧ b ≠ 62 ∧ b ≠ 92)

/-- The digit `hex[n]` of encode.go. -/
def hexDigit (n : Nat) : Nat := if n < 10 then 48 + n else 97 + (n - 10)

/-- The escape `appendString` writes for an ASCII byte outside `htmlSafeSet`. -/
def escapeByte (b : Nat) : Bytes :=
  if b = 92 ∨ b = 34 then [92, b]
  else if b = 8 then [92, 98]
  else if b = 12 then [92, 102]
  else if b = 10 then [92, 110]
  else if b = 13 then [92, 114]
  else if b = 9 then [92, 116]
  else [92, 117, 48, 48, hexDigit (b / 16), hexDigit (b % 16)]

/-- The loop of Go `appendString` (with `escapeHTML`), the quotes apart.  The
first argument counts the bytes of a rune already copied at its first byte. -/
def appendStringLoop : Nat → Bytes → Bytes
  | _, [] => []
  | skip + 1, _ :: cs => appendStringLoop skip cs
  | 0, c :: cs =>
    if c < 0x80 then
      (if htmlSafe c then [c] else escapeByte c) ++ appendStringLoop 0 cs
    else
      let d := DecodeRune ((c :: cs).take 4)
      if d.1 = RuneError ∧ d.2 = 1 then
        [92, 117, 102, 102, 102, 100] ++ appendStringLoop 0 cs
      else if d.1 = 0x2028 ∨ d.1 = 0x2029 then
        [92, 117, 50, 48, 50, hexDigit (d.1 % 16)] ++ appendStringLoop (d.2 - 1) cs
      else (c :: cs).take d.2 ++ appendStringLoop (d.2 - 1) cs

/-- Go `appendString`: a string as a quoted JSON literal. -/
def appendString (s : Bytes) : Bytes := 34 :: appendStringLoop 0 s ++ [34]

/-! ## strconv: float64 -/

/-- A finite `float64`: the value `(-1)^neg * mant * 2^exp`.  `ParseFloat`
returns it normalised: `mant < 2^53`, `-1074 ≤ exp ≤ 971`, and
`2^52 ≤ mant` unless `exp = -1074`. -/
structure Float64 where
  neg : Bool
  mant : Nat
  exp : Int
  deriving DecidableEq, Repr

/-- The zero value of `float64`. -/
def Float64.zero : Float64 := ⟨false, 0, -1074⟩

/-- The exact decimal a number literal denotes: `(-1)^neg * digits * 10^exp`. -/
structure Decimal where
  neg : Bool
  digits : Nat
  exp : Int
  deriving DecidableEq, Repr

/-- Read a run of decimal digits onto `acc`: the value, the number of digits
read, and the bytes after them. -/
def readDigits : Nat → Bytes → Nat × Nat × Bytes
  | acc, [] => (acc, 0, [])
  | acc, c :: cs =>
    if isDigit c then
      let r := readDigits (acc * 10 + (c - 48)) cs
      (r.1, r.2.1 + 1, r.2.2)
    else (acc, 0, c :: cs)

/-- The exponent part of a literal: empty, or `e`/`E`, a sign, digits. -/
def readExponent : Bytes → Option Int
  | [] => some 0
  | c :: cs =>
    if c = 101 ∨ c = 69 then
      match cs with
      | [] => none
      | s :: ds =>
        let neg := decide (s = 45)
        let body := if s = 43 ∨ s = 45 then ds else s :: ds
        match readDigits 0 body with
        | (v, n, []) => if n = 0 then none else some (if neg then -(v : Int) else v)
        | _ => none
    else none

/-- The decimal value of a number literal (`readFloat` of atof.go on the
literals the scanner accepts): sign, integer digits, fraction, exponent. -/
def readDecimal (lit : Bytes) : Option Decimal :=
  let neg := decide (lit.head? = some 45)
  let s := if neg then lit.tail else lit
  let ip := readDigits 0 s
  if ip.2.1 = 0 then none
  else
    let fp : Nat × Nat × Bytes :=
      match ip.2.2 with
      | 46 :: s' => readDigits ip.1 s'
      | s' => (ip.1, 0, s')
    match readExponent fp.2.2 with
    | some e => some ⟨neg, fp.1, e - fp.2.1⟩
    | none => none

/-- Halve `n` until it is below 2, counting the steps. -/
def log2Loop : Nat → Nat → Nat
  | 0, _ => 0
  | fuel + 1, n => if 2 ≤ n then log2Loop fuel (n / 2) + 1 else 0

/-- The position of the leading bit of `n`: `2^(log2 n) ≤ n < 2^(log2 n + 1)`. -/
def log2 (n : Nat) : Nat := log2Loop n n

/-- The integer `l` with `2^l ≤ num/den < 2^(l+1)`, for positive `num`, `den`. -/
def floorLog2 (num den : Nat) : Int :=
  let l : Int := (log2 num : Int) - (log2 den : Int)
  if den * 2 ^ l.toNat ≤ num * 2 ^ (-l).toNat then l else l - 1

/-- Round the positive rational `num/den` to the nearest `float64`, ties to
even (IEEE 754): mantissa and exponent, or `none` past the largest finite
value (`ParseFloat` then reports `ErrRange`). -/
def roundRatio (num den : Nat) : Option (Nat × Int) :=
  let e : Int := max (floorLog2 num den - 52) (-1074)
  let n := num * 2 ^ (-e).toNat
  let d := den * 2 ^ e.toNat
  let q := n / d
  let r := n % d
  let m := if 2 * r < d then q else if d < 2 * r then q + 1 else q + q % 2
  let me : Nat × Int := if m = 2 ^ 53 then (2 ^ 52, e + 1) else (m, e)
  if 971 < me.2 then none else some me

/-- The `float64` nearest to `digits * 10^exp` (positive `digits`). -/
def roundDecimal (digits : Nat) (exp : Int) : Option (Nat × Int) :=
  roundRatio (digits * 10 ^ exp.toNat) (10 ^ (-exp).toNat)

/-- Go `strconv.ParseFloat(lit, 64)` on a literal the scanner accepted:
`none` when it returns an error. -/
def ParseFloat (lit : Bytes) : Option Float64 :=
  match readDecimal lit with
  | none => none
  | some d =>
    if d.digits = 0 then some ⟨d.neg, 0, -1074⟩
    else (roundDecimal d.digits d.exp).map fun me => ⟨d.neg, me.1, me.2⟩

/-- Whether the decimal `d * 10^s` is read back as the float `m * 2^e`. -/
def readsBack (m : Nat) (e : Int) (d : Nat) (s : Int) : Bool :=
  decide (d ≠ 0 ∧ roundDecimal d s = some (m, e))

/-- The value `m * 2^e` written out in full: `m * 5^(-e) * 10^e` for a
negative `e`, the integer `m * 2^e` otherwise. -/
def exactDecimal (m : Nat) (e : Int) : Nat × Int :=
  (m * 2 ^ e.toNat * 5 ^ (-e).toNat, min e 0)

/-- The search for the shortest decimal that `ParseFloat` reads back as
`m * 2^e`: at each decimal position from `s` down, the multiples of `10^s`
next below and next above the value are tried, the nearer first (the even one
when they are equally near).  When the positions run out the value written
out in full is the answer. -/
def shortestFrom (m : Nat) (e : Int) : Nat → Int → Nat × Int
  | 0, _ => exactDecimal m e
  | fuel + 1, s =>
    -- the value is `num / den` in units of `10^s`
    let num := m * 2 ^ e.toNat * 10 ^ (-s).toNat
    let den := 2 ^ (-e).toNat * 10 ^ s.toNat
    let lo := num / den
    let hi := lo + 1
    let lowerNearer :=
      decide (2 * num < (2 * lo + 1) * den ∨ (2 * num = (2 * lo + 1) * den ∧ lo % 2 = 0))
    let first := if lowerNearer then lo else hi
    let second := if lowerNearer then hi else lo
    if readsBack m e first s then (first, s)
    else if readsBack m e second s then (second, s)
    else shortestFrom m e fuel (s - 1)

/-- A decimal position above the leading digit of `m * 2^e`: the value is
below `2^(log2 m + e + 1)`, and `log10 2 < 0.30103`. -/
def startScale (m : Nat) (e : Int) : Int :=
  ((log2 m : Int) + e + 1) * 30103 / 100000 + 2

/-- The shortest decimal digits that identify a positive `float64`
(`FormatFloat` with precision `-1`), as mantissa and exponent.  The search
runs from above the leading digit down to position `-1074`, where every
`float64` is a whole multiple. -/
def shortest (m : Nat) (e : Int) : Nat × Int :=
  shortestFrom m e (startScale m e + 1075).toNat (startScale m e)

/-- The loop of `digitsOf`. -/
def digitsLoop : Nat → Nat → Bytes → Bytes
  | 0, _, acc => acc
  | fuel + 1, n, acc =>
    if n < 10 then (48 + n) :: acc else digitsLoop fuel (n / 10) ((48 + n % 10) :: acc)

/-- The decimal digits of a number, most significant first. -/
def digitsOf (n : Nat) : Bytes := digitsLoop (n + 1) n []

/-- Go `%e` with the shortest digits `ds` and decimal point position `dp`
(the value is `0.ds * 10^dp`): `d.ddde±xx`, the exponent of two digits at
least. -/
def fmtE (ds : Bytes) (dp : Int) : Bytes :=
  let x := dp - 1
  let xs := digitsOf x.natAbs
  ds.take 1 ++ (if 1 < ds.length then 46 :: ds.drop 1 else []) ++
    [101, if x < 0 then 45 else 43] ++ (if xs.length < 2 then 48 :: xs else xs)

/-- Go `%f` with the shortest digits: the integer part (`0` when empty), and
the fraction when there are digits after the point. -/
def fmtF (ds : Bytes) (dp : Int) : Bytes :=
  let n : Int := ds.length
  (if 0 < dp then ds.take dp.toNat ++ List.replicate (dp - n).toNat 48 else [48]) ++
    (if dp < n then 46 :: (List.replicate (-dp).toNat 48 ++ ds.drop dp.toNat) else [])

/-- The clean-up of `floatEncoder`: `e-09` becomes `e-9`. -/
def cleanExponent (b : Bytes) : Bytes :=
  match b.reverse with
  | d :: z :: s :: e :: rest =>
    if e = 101 ∧ (s = 45 ∨ s = 43) ∧ z = 48 then (d :: s :: e :: rest).reverse else b
  | _ => b

/-- Whether `|f| < 1e-6 || |f| >= 1e21`, the condition under which
`floatEncoder` chooses the format `e`.  The constants are the `float64`
values `4722366482869645 * 2^-72` and `10^21`. -/
def useExponent (m : Nat) (e : Int) : Bool :=
  decide (m * 2 ^ e.toNat * 2 ^ 72 < 4722366482869645 * 2 ^ (-e).toNat) ||
  decide (10 ^ 21 * 2 ^ (-e).toNat ≤ m * 2 ^ e.toNat)

/-- The text `floatEncoder` writes for a finite `float64`. -/
def formatFloat (f : Float64) : Bytes :=
  (if f.neg then [45] else []) ++
  if f.mant = 0 then [48]
  else
    let r := shortest f.mant f.exp
    let ds := digitsOf r.1
    let dp : Int := ds.length + r.2
    if useExponent f.mant f.exp then cleanExponent (fmtE ds dp) else fmtF ds dp

/-! ## encoding/json: unmarshalling into `PredictRequest` -/

/-- A Go slice value: `nil`, or its elements together with the elements left
in its backing array past its length (`spare`).  `decodeState.array` decodes
into the elements already there, so they are part of the state; past `spare`
the backing array holds zero values, whatever its capacity. -/
inductive GoSlice (α : Type) where
  | nil
  | mk (elems : List α) (spare : List α)
  deriving DecidableEq

/-- The elements of a slice: what `len` and indexing show. -/
def GoSlice.elems? {α : Type} : GoSlice α → Option (List α)
  | .nil => none
  | .mk es _ => some es

/-- The backing array of a slice up to the last element ever set. -/
def GoSlice.backing {α : Type} : GoSlice α → List α
  | .nil => []
  | .mk es sp => es ++ sp

/-- The loop of `decodeState.array` into a slice: element `i` of the JSON
array is decoded into slot `i` of the backing array (the zero value past its
end); returns the decoded elements and the slots not reached. -/
def decodeElems {α : Type} (dec : α → Json → Option α) (zero : α) :
    List α → List Json → Option (List α × List α)
  | slots, [] => some ([], slots)
  | slots, j :: js =>
    match dec (slots.headD zero) j with
    | none => none
    | some x =>
      match decodeElems dec zero slots.tail js with
      | none => none
      | some (xs, left) => some (x :: xs, left)

/-- Go `decodeState.value` into a slice: an array is decoded element by
element (an empty array gives a fresh empty slice), `null` gives nil, any
other value is an `UnmarshalTypeError` (`none`). -/
def decodeSlice {α : Type} (dec : α → Json → Option α) (zero : α)
    (v : GoSlice α) : Json → Option (GoSlice α)
  | .arr [] => some (.mk [] [])
  | .arr (j :: js) =>
    (decodeElems dec zero v.backing (j :: js)).map fun p => .mk p.1 p.2
  | .null => some .nil
  | _ => none

/-- Go `decodeState.literalStore` into a `float64`: a number is parsed,
`null` leaves the value as it is, anything else is an `UnmarshalTypeError`. -/
def decodeFloat (v : Float64) : Json → Option Float64
  | .num lit => ParseFloat lit
  | .null => some v
  | _ => none

/-- Go `decodeState.literalStore` into a `string`. -/
def decodeString (v : Bytes) : Json → Option Bytes
  | .str raw => unquote raw
  | .null => some v
  | _ => none

/-- The request type of `main.go`: `AOI [][][]float64` and `Date string`. -/
structure PredictRequest where
  AOI : GoSlice (GoSlice (GoSlice Float64))
  Date : Bytes
  deriving DecidableEq

/-- The zero value of `PredictRequest` (`var req PredictRequest`). -/
def PredictRequest.zero : PredictRequest := ⟨.nil, []⟩

/-- Decode into `[]float64`. -/
def decodeRing : GoSlice Float64 → Json → Option (GoSlice Float64) :=
  decodeSlice decodeFloat Float64.zero

/-- Decode into `[][]float64`. -/
def decodePolygon :
    GoSlice (GoSlice Float64) → Json → Option (GoSlice (GoSlice Float64)) :=
  decodeSlice decodeRing .nil

/-- Decode into `[][][]float64`, the type of the field `AOI`. -/
def decodeAOI :
    GoSlice (GoSlice (GoSlice Float64)) → Json → Option (GoSlice (GoSlice (GoSlice Float64))) :=
  decodeSlice decodePolygon .nil

/-- The fields of `PredictRequest`. -/
inductive Field where
  | aoi
  | date
  deriving DecidableEq

/-- Go `foldName` on ASCII: lower-case letters become upper-case.  (Go also
folds non-ASCII runes; none folds to a letter of `AOI` or `DATE`.) -/
def foldName (key : Bytes) : Bytes :=
  key.map fun c => if 97 ≤ c ∧ c ≤ 122 then c - 32 else c

/-- The field a member key selects in `decodeState.object`: the exact JSON
name, else the name that is equal under case folding, else none. -/
def lookupField (key : Bytes) : Option Field :=
  if key = ascii "aoi" then some .aoi
  else if key = ascii "date" then some .date
  else if foldName key = ascii "AOI" then some .aoi
  else if foldName key = ascii "DATE" then some .date
  else none

/-- The loop of `decodeState.object` into the struct: each member in turn is
decoded into the field its key selects; a member of no field is skipped. -/
def decodeMembers : PredictRequest → List (Bytes × Json) → Option PredictRequest
  | r, [] => some r
  | r, (rawKey, v) :: ms =>
    match unquote rawKey with
    | none => none
    | some key =>
      match lookupField key with
      | some .aoi =>
        match decodeAOI r.AOI v with
        | some a => decodeMembers { r with AOI := a } ms
        | none => none
      | some .date =>
        match decodeString r.Date v with
        | some d => decodeMembers { r with Date := d } ms
        | none => none
      | none => decodeMembers r ms

/-- Go `decodeState.unmarshal` into a `*PredictRequest`: an object fills the
fields, `null` changes nothing, any other value is an `UnmarshalTypeError`.
The first type error ends the decoding here; Go records it, goes on, and
returns it at the end, with the same outcome for the caller. -/
def unmarshal (r : PredictRequest) : Json → Option PredictRequest
  | .obj ms => decodeMembers r ms
  | .null => some r
  | _ => none

/-- The call `json.NewDecoder(r.Body).Decode(&req)` of `predictHandler` on a
zero `req`: the value of `req` when `err == nil`. -/
def Decode (body : Bytes) : Res PredictRequest :=
  match readValue body with
  | .ok (j, _) =>
    match unmarshal PredictRequest.zero j with
    | some r => .ok r
    | none => .invalid
  | .invalid => .invalid
  | .outOfFuel => .outOfFuel

/-! ## encoding/json: marshalling `PredictRequest` -/

/-- Join encoded elements with commas. -/
def joinComma : List Bytes → Bytes
  | [] => []
  | [x] => x
  | x :: y :: rest => x ++ 44 :: joinComma (y :: rest)

/-- Go `sliceEncoder` and `arrayEncoder`: `null` for a nil slice, else the
elements between brackets. -/
def encodeSlice {α : Type} (enc : α → Bytes) : GoSlice α → Bytes
  | .nil => ascii "null"
  | .mk es _ => 91 :: joinComma (es.map enc) ++ [93]

/-- The encoding of the field `AOI`. -/
def encodeAOI (a : GoSlice (GoSlice (GoSlice Float64))) : Bytes :=
  encodeSlice (encodeSlice (encodeSlice formatFloat)) a

/-- The call `json.Marshal(req)` of `predictHandler`: the struct encoder
writes the two fields in declaration order under their JSON names. -/
def Marshal (r : PredictRequest) : Bytes :=
  ascii "\x7b\"aoi\":" ++ encodeAOI r.AOI ++ ascii ",\"date\":" ++
    appendString r.Date ++ ascii "\x7d"

/-! ## net/http -/

/-- An HTTP header map with one value per key (`Header.Set` only). -/
abbrev Header := List (String × String)

/-- Go `Header.Set`: replace the values of a key by one value. -/
def Header.Set (h : Header) (key value : String) : Header :=
  (key, value) :: h.filter fun kv => kv.1 ≠ key

/-- Go `Header.Get`. -/
def Header.Get (h : Header) (key : String) : Option String :=
  (h.find? fun kv => kv.1 = key).map Prod.snd

/-- A line on the standard logger of package `log`: one the handler writes
with `log.Println` (the text printed), or one net/http writes through
`Server.logf`, which goes to the standard logger since `main` leaves
`Server.ErrorLog` nil.  Of a line of net/http only its kind is kept: its text
ends in the position of the caller or in a stack trace. -/
inductive LogLine where
  | println (text : Bytes)
  /-- The line `http: superfluous response.WriteHeader call from ...`. -/
  | superfluousWriteHeader
  /-- The line `http: panic serving ...: invalid WriteHeader code ...`. -/
  | panicServing (code : Nat)
  deriving DecidableEq

/-- The state of an `http.ResponseWriter` as a handler drives it.  `header` is
the map `w.Header()` returns; the first effective `WriteHeader` commits the
status line together with the header map as it stands (`sent`); later changes
of the map and later calls of `WriteHeader` do not reach the client; `body`
collects the bytes `Write` accepted (a HEAD request is sent none of them);
`interim` lists the informational status lines written; `panicked` says that a
call has panicked, which ends the handler: every later call leaves the state
as it is; `errorLog` lists the lines net/http logs.  No handler of `main.go`
sets `Content-Length`, and its part in `Write` is left out. -/
structure ResponseWriter where
  header : Header
  wroteHeader : Bool
  status : Nat
  sent : Header
  body : Bytes
  interim : List Nat
  panicked : Bool
  errorLog : List LogLine
  deriving DecidableEq

/-- The writer a handler is called with. -/
def ResponseWriter.new : ResponseWriter := ⟨[], false, 0, [], [], [], false, []⟩

/-- Go `bodyAllowedForStatus`: a response of status 1xx, 204 or 304 has no
body. -/
def bodyAllowedForStatus (status : Nat) : Bool :=
  if 100 ≤ status ∧ status ≤ 199 then false
  else if status = 204 then false
  else if status = 304 then false
  else true

/-- Go `(*response).WriteHeader`: when the header is written already, a line
in the log and nothing else; a panic on a code that has not three digits
(`checkWriteHeaderCode`), which the server recovers and logs; an
informational status line for a 1xx code other than 101, which commits
nothing; else the status and the header map are committed. -/
def ResponseWriter.WriteHeader (w : ResponseWriter) (code : Nat) : ResponseWriter :=
  if w.panicked then w
  else if w.wroteHeader then { w with errorLog := w.errorLog ++ [.superfluousWriteHeader] }
  else if code < 100 ∨ 999 < code then
    { w with panicked := true, errorLog := w.errorLog ++ [.panicServing code] }
  else if 100 ≤ code ∧ code ≤ 199 ∧ code ≠ 101 then { w with interim := w.interim ++ [code] }
  else { w with wroteHeader := true, status := code, sent := w.header }

/-- The call `w.Header().Set(key, value)`. -/
def ResponseWriter.SetHeader (w : ResponseWriter) (key value : String) : ResponseWriter :=
  if w.panicked then w
  else { w with header := w.header.Set key value }

/-- Go `(*response).Write`: `WriteHeader(http.StatusOK)` when no header is
written yet; then nothing for no bytes, `ErrBodyNotAllowed` (nothing written)
when the status admits no body, else the bytes. -/
def ResponseWriter.Write (w : ResponseWriter) (b : Bytes) : ResponseWriter :=
  if w.panicked then w
  else
    let w := if w.wroteHeader then w else w.WriteHeader 200
    if b.isEmpty then w
    else if bodyAllowedForStatus w.status then { w with body := w.body ++ b }
    else w

/-- Go `http.Error`: plain-text content type, `nosniff`, the status, and the
message followed by a newline (`fmt.Fprintln`). -/
def Error (w : ResponseWriter) (error : Bytes) (code : Nat) : ResponseWriter :=
  let w := w.SetHeader "Content-Type" "text/plain; charset=utf-8"
  let w := w.SetHeader "X-Content-Type-Options" "nosniff"
  let w := w.WriteHeader code
  w.Write (error ++ [10])

/-- Go `http.StatusBadRequest`. -/
def StatusBadRequest : Nat := 400

/-- Go `http.StatusInternalServerError`. -/
def StatusInternalServerError : Nat := 500

/-! ## net/http: content type sniffing (sniff.go) -/

/-- Upper-case an ASCII letter. -/
def toUpper (c : Nat) : Nat := if 97 ≤ c ∧ c ≤ 122 then c - 32 else c

/-- Go `isWS`: the white space the sniffer passes over. -/
def isWS (c : Nat) : Bool := decide (c = 9 ∨ c = 10 ∨ c = 12 ∨ c = 13 ∨ c = 32)

/-- The data from its first byte that is no white space (`data[firstNonWS:]`). -/
def skipWS : Bytes → Bytes
  | [] => []
  | c :: cs => if isWS c then skipWS cs else c :: cs

/-- Go `htmlSig.match` on the data past the white space: the data starts with
the signature, letters compared without case, followed by a space or `>`
(`isTT`). -/
def htmlSigMatch : Bytes → Bytes → Bool
  | [], d :: _ => decide (d = 32 ∨ d = 62)
  | [], [] => false
  | _ :: _, [] => false
  | b :: sig, d :: data => decide (toUpper d = b) && htmlSigMatch sig data

/-- Go `maskedSig.match`: mask and pattern of one length, the data at least as
long, and every masked byte of the data equal to the byte of the pattern. -/
def maskedSigMatch : Bytes → Bytes → Bytes → Bool
  | [], [], _ => true
  | m :: mask, p :: pat, d :: data => decide (d &&& m = p) && maskedSigMatch mask pat data
  | _, _, _ => false

/-- Go `bytes.HasPrefix(data, sig)`, the test of `exactSig.match`. -/
def exactSigMatch : Bytes → Bytes → Bool
  | [], _ => true
  | _ :: _, [] => false
  | b :: sig, d :: data => decide (d = b) && exactSigMatch sig data

/-- The loop of `mp4Sig.match` over the brands of the box, from offset `st`:
whether one starts with `mp4` (the four bytes at offset 12 are passed over). -/
def mp4Brands : Nat → Nat → Nat → Bytes → Bool
  | 0, _, _, _ => false
  | fuel + 1, st, boxSize, data =>
    if st < boxSize then
      if st ≠ 12 ∧ (data.drop st).take 3 = [109, 112, 52] then true
      else mp4Brands fuel (st + 4) boxSize data
    else false

/-- Go `mp4Sig.match`: a box of type `ftyp`, of a size that is a multiple of
four within the data, with a brand that starts with `mp4`. -/
def mp4SigMatch (data : Bytes) : Bool :=
  match data with
  | a :: b :: c :: d :: _ =>
    let boxSize := ((a * 256 + b) * 256 + c) * 256 + d
    if data.length < 12 then false
    else if data.length < boxSize ∨ boxSize % 4 ≠ 0 then false
    else if (data.drop 4).take 4 ≠ [102, 116, 121, 112] then false
    else mp4Brands data.length 8 boxSize data
  | _ => false

/-- Go `textSig.match` on the data past the white space: no byte of a binary
format. -/
def textSigMatch (data : Bytes) : Bool :=
  data.all fun b =>
    !decide (b ≤ 0x08 ∨ b = 0x0B ∨ (0x0E ≤ b ∧ b ≤ 0x1A) ∨ (0x1C ≤ b ∧ b ≤ 0x1F))

/-- A signature of the table `sniffSignatures`. -/
inductive SniffSig where
  | html (sig : Bytes)
  | masked (mask pat : Bytes) (skipWS : Bool) (ct : String)
  | exact (sig : Bytes) (ct : String)
  | mp4
  | text

/-- The method `match` of a signature: the content type, `none` for Go's empty
string.  `rest` is the data past its leading white space. -/
def SniffSig.matchData (sig : SniffSig) (data rest : Bytes) : Option String :=
  match sig with
  | .html h => if htmlSigMatch h rest then some "text/html; charset=utf-8" else none
  | .masked mask pat skip ct =>
    if maskedSigMatch mask pat (if skip then rest else data) then some ct else none
  | .exact e ct => if exactSigMatch e data then some ct else none
  | .mp4 => if mp4SigMatch data then some "video/mp4" else none
  | .text => if textSigMatch rest then some "text/plain; charset=utf-8" else none

/-- The 34 zero bytes that open mask and pattern of the signature of an
embedded OpenType font. -/
def zeros34 : Bytes := List.replicate 34 0

/-- Go `sniffSignatures`, in the order of the table. -/
def sniffSignatures : List SniffSig :=
  [ .html (ascii "<!DOCTYPE HTML"),
    .html (ascii "<HTML"),
    .html (ascii "<HEAD"),
    .html (ascii "<SCRIPT"),
    .html (ascii "<IFRAME"),
    .html (ascii "<H1"),
    .html (ascii "<DIV"),
    .html (ascii "<FONT"),
    .html (ascii "<TABLE"),
    .html (ascii "<A"),
    .html (ascii "<STYLE"),
    .html (ascii "<TITLE"),
    .html (ascii "<B"),
    .html (ascii "<BODY"),
    .html (ascii "<BR"),
    .html (ascii "<P"),
    .html (ascii "<!--"),
    .masked [0xFF, 0xFF, 0xFF, 0xFF, 0xFF] (ascii "<?xml") true "text/xml; charset=utf-8",
    .exact (ascii "%PDF-") "application/pdf",
    .exact (ascii "%!PS-Adobe-") "application/postscript",
    .masked [0xFF, 0xFF, 0, 0] [0xFE, 0xFF, 0, 0] false "text/plain; charset=utf-16be",
    .masked [0xFF, 0xFF, 0, 0] [0xFF, 0xFE, 0, 0] false "text/plain; charset=utf-16le",
    .masked [0xFF, 0xFF, 0xFF, 0] [0xEF, 0xBB, 0xBF, 0] false "text/plain; charset=utf-8",
    .exact [0, 0, 1, 0] "image/x-icon",
    .exact [0, 0, 2, 0] "image/x-icon",
    .exact (ascii "BM") "image/bmp",
    .exact (ascii "GIF87a") "image/gif",
    .exact (ascii "GIF89a") "image/gif",
    .exact [0x89, 0x50, 0x4E, 0x47, 0x0D, 0x0A, 0x1A, 0x0A] "image/png",
    .exact [0xFF, 0xD8, 0xFF] "image/jpeg",
    .masked [0xFF, 0xFF, 0xFF, 0xFF, 0, 0, 0, 0, 0xFF, 0xFF, 0xFF, 0xFF, 0xFF, 0xFF]
      (ascii "RIFF" ++ [0, 0, 0, 0] ++ ascii "WEBPVP") false "image/webp",
    .masked [0xFF, 0xFF, 0xFF, 0xFF, 0, 0, 0, 0, 0xFF, 0xFF, 0xFF, 0xFF]
      (ascii "FORM" ++ [0, 0, 0, 0] ++ ascii "AIFF") false "audio/aiff",
    .masked [0xFF, 0xFF, 0xFF] (ascii "ID3") false "audio/mpeg",
    .masked [0xFF, 0xFF, 0xFF, 0xFF, 0xFF] (ascii "OggS" ++ [0]) false "application/ogg",
    .masked [0xFF, 0xFF, 0xFF, 0xFF, 0xFF, 0xFF, 0xFF, 0xFF]
      (ascii "MThd" ++ [0, 0, 0, 6]) false "audio/midi",
    .masked [0xFF, 0xFF, 0xFF, 0xFF, 0, 0, 0, 0, 0xFF, 0xFF, 0xFF, 0xFF]
      (ascii "RIFF" ++ [0, 0, 0, 0] ++ ascii "AVI ") false "video/avi",
    .masked [0xFF, 0xFF, 0xFF, 0xFF, 0, 0, 0, 0, 0xFF, 0xFF, 0xFF, 0xFF]
      (ascii "RIFF" ++ [0, 0, 0, 0] ++ ascii "WAVE") false "audio/wave",
    .mp4,
    .exact [0x1A, 0x45, 0xDF, 0xA3] "video/webm",
    .masked (zeros34 ++ [0xFF, 0xFF]) (zeros34 ++ ascii "LP") false
      "application/vnd.ms-fontobject",
    .exact [0, 1, 0, 0] "font/ttf",
    .exact (ascii "OTTO") "font/otf",
    .exact (ascii "ttcf") "font/collection",
    .exact (ascii "wOFF") "font/woff",
    .exact (ascii "wOF2") "font/woff2",
    .exact [0x1F, 0x8B, 0x08] "application/x-gzip",
    .exact (ascii "PK" ++ [3, 4]) "application/zip",
    .exact (ascii "Rar!" ++ [0x1A, 0x07, 0x00]) "application/x-rar-compressed",
    .exact (ascii "Rar!" ++ [0x1A, 0x07, 0x01, 0x00]) "application/x-rar-compressed",
    .exact [0x00, 0x61, 0x73, 0x6D] "application/wasm",
    .text ]

/-- Go `http.DetectContentType`: the content type of the first signature that
matches the first 512 bytes, `application/octet-stream` when none does. -/
def DetectContentType (data : Bytes) : String :=
  let data := data.take 512
  let rest := skipWS data
  (sniffSignatures.findSome? fun sig => sig.matchData data rest).getD
    "application/octet-stream"

/-- The `Content-Type` the client is sent: the committed header, else, for a
status that admits a body and a body that is not empty, what the server
sniffs from its first bytes (`chunkWriter.writeHeader`); a 304 response is
sent none.  No handler of `main.go` sets `Content-Encoding` or
`Transfer-Encoding`, which would turn the sniffing off. -/
def ResponseWriter.contentType (w : ResponseWriter) : Option String :=
  if w.status = 304 then none
  else
    match w.sent.Get "Content-Type" with
    | some ct => some ct
    | none =>
      if bodyAllowedForStatus w.status ∧ ¬ w.body.isEmpty then
        some (DetectContentType w.body)
      else none

/-- An inbound request, as far as a handler could read it. -/
structure Request where
  method : String
  target : String
  header : Header
  body : Bytes

/-! ## html/template -/

/-- Whether the text holds the left action delimiter. -/
def hasAction : Bytes → Bool
  | [] => false
  | [_] => false
  | c :: d :: cs => (decide (c = 123 ∧ d = 123)) || hasAction (d :: cs)

/-- A parsed template without actions: one text node. -/
structure Template where
  text : Bytes

/-- Go `template.New(name).Parse(text)` on a text without actions; a text with
actions is outside the embedding (`none`). -/
def templateParse (text : Bytes) : Option Template :=
  if hasAction text then none else some ⟨text⟩

/-- Go `Template.Execute` on a template of one text node: the text is written
as it stands (the escaper of html/template changes text only at comments and
at a `<` that opens no tag), whatever the data. -/
def Template.Execute (t : Template) (w : ResponseWriter) : ResponseWriter :=
  if t.text = [] then w else w.Write t.text

/-! ## main.go -/

/-- The raw string `tmpl` of `homeHandler`. -/
def tmpl : String :=
  "\n" ++
  "<!DOCTYPE html>\n" ++
  "<html>\n" ++
  "<head>\n" ++
  "\t<title>Fire Risk Prediction</title>\n" ++
  "\t<meta charset=\"UTF-8\">\n" ++
  "\t<style>\n" ++
  "\t\tbody \x7b font-family: Arial; \x7d\n" ++
  "\t\t#map \x7b height: 400px; width: 100%; margin-bottom: 10px; \x7d\n" ++
  "\t</style>\n" ++
  "\t<link rel=\"stylesheet\" href=\"https://unpkg.com/leaflet@1.9.4/dist/leaflet.css\"/>\n" ++
  "\t<script src=\"https://unpkg.com/leaflet@1.9.4/dist/leaflet.js\"></script>\n" ++
  "</head>\n" ++
  "<body>\n" ++
  "\t<h2>Fire Risk Estimation in Kazakhstan</h2>\n" ++
  "\t<div id=\"map\"></div>\n" ++
  "\t<label>Date: <input type=\"date\" id=\"date_input\"/></label>\n" ++
  "\t<button onclick=\"sendRequest()\">Check Fire Risk</button>\n" ++
  "\t<p id=\"result\"></p>\n" ++
  "\n" ++
  "\t<script>\n" ++
  "\t\tvar map = L.map(\x27map\x27).setView([50.0, 79.0], 8);\n" ++
  "\t\tL.tileLayer(\x27https://\x7bs\x7d.tile.openstreetmap.org/\x7bz\x7d/\x7bx\x7d/\x7by\x7d.png\x27).addTo(map);\n" ++
  "\n" ++
  "\t\tvar drawnPolygon = null;\n" ++
  "\n" ++
  "\t\tmap.on(\x27click\x27, function(e) \x7b\n" ++
  "\t\t\tif (!drawnPolygon) \x7b\n" ++
  "\t\t\t\tdrawnPolygon = L.polygon([ [e.latlng] ]).addTo(map);\n" ++
  "\t\t\t\x7d else \x7b\n" ++
  "\t\t\t\tlet latlngs = drawnPolygon.getLatLngs()[0];\n" ++
  "\t\t\t\tlatlngs.push(e.latlng);\n" ++
  "\t\t\t\tdrawnPolygon.setLatLngs([latlngs]);\n" ++
  "\t\t\t\x7d\n" ++
  "\t\t\x7d);\n" ++
  "\n" ++
  "\t\tfunction sendRequest() \x7b\n" ++
  "\t\t\tif (!drawnPolygon) \x7b\n" ++
  "\t\t\t\talert(\"Please draw a polygon by clicking on the map\");\n" ++
  "\t\t\t\treturn;\n" ++
  "\t\t\t\x7d\n" ++
  "\t\t\tlet coords = drawnPolygon.toGeoJSON().geometry.coordinates;\n" ++
  "\t\t\tlet date = document.getElementById(\x27date_input\x27).value;\n" ++
  "\t\t\tfetch(\"/predict\", \x7b\n" ++
  "\t\t\t\tmethod: \"POST\",\n" ++
  "\t\t\t\theaders: \x7b \"Content-Type\": \"application/json\" \x7d,\n" ++
  "\t\t\t\tbody: JSON.stringify(\x7b aoi: coords, date: date \x7d)\n" ++
  "\t\t\t\x7d)\n" ++
  "\t\t\t.then(res => res.json())\n" ++
  "\t\t\t.then(data => \x7b\n" ++
  "\t\t\t\tdocument.getElementById(\"result\").innerText = \"Fire probability: \" + data.probability + \" (\" + data.message + \")\";\n" ++
  "\t\t\t\x7d)\n" ++
  "\t\t\t.catch(err => alert(\"Error: \" + err));\n" ++
  "\t\t\x7d\n" ++
  "\t</script>\n" ++
  "</body>\n" ++
  "</html>"

/-- The handler `homeHandler` of `main.go`: parse the page and execute it with
no data.  (`template.Must` panics on a parse error: nothing is written.) -/
def homeHandler (w : ResponseWriter) (_r : Request) : ResponseWriter :=
  match templateParse (ascii tmpl) with
  | some t => t.Execute w
  | none => w

/-- The error `http.Post` returns, a `*url.Error`. -/
structure UrlError where
  /-- The field `Op`. -/
  op : Bytes
  /-- The field `URL` as `%q` prints it. -/
  quotedURL : Bytes
  /-- The text of the wrapped error. -/
  err : Bytes
  deriving DecidableEq

/-- Go `(*url.Error).Error`: `fmt.Sprintf("%s %q: %s", e.Op, e.URL, e.Err)`. -/
def UrlError.Error (e : UrlError) : Bytes :=
  e.op ++ [32] ++ e.quotedURL ++ [58, 32] ++ e.err

/-- What the call `http.Post(predictAPIURL, ...)` and the `io.ReadAll` of the
response body come to: a transport error, or a response with its status code,
the bytes read from its body, and the text of the read error if reading
failed (the bytes are then those read before the failure). -/
inductive PostResult where
  | transportError (e : UrlError)
  | response (statusCode : Nat) (body : Bytes) (readErr : Option Bytes)
  deriving DecidableEq

/-- What a run of `predictHandler` does: the response, the lines it logs
(`log.Println`), and the bodies of the calls it makes to the upstream. -/
structure Effects where
  w : ResponseWriter
  log : List Bytes
  calls : List Bytes
  deriving DecidableEq

/-- The handler `predictHandler` of `main.go`.  `post` is the upstream at
`predictAPIURL`: the outcome of a POST of the given body.  After the read of
the upstream body the handler only calls the writer, so that a panic of
`WriteHeader` is in the state of the writer. -/
def predictHandler (post : Bytes → PostResult)
    (w : ResponseWriter) (r : Request) : Effects :=
  match Decode r.body with
  | .ok req =>
    let reqJSON := Marshal req
    match post reqJSON with
    | .transportError e =>
      { w := Error w (ascii "Prediction service error: " ++ e.Error) StatusInternalServerError,
        log := [e.Error],
        calls := [reqJSON] }
    | .response statusCode body readErr =>
      let afterRead : ResponseWriter × List Bytes :=
        match readErr with
        | some e =>
          (Error w (ascii "Prediction service error: " ++ e) StatusInternalServerError, [e])
        | none => (w, [])
      let w := afterRead.1.WriteHeader statusCode
      let w := w.SetHeader "Content-Type" "application/json"
      { w := w.Write body, log := afterRead.2, calls := [reqJSON] }
  | _ =>
    { w := Error w (ascii "Invalid request") StatusBadRequest, log := [], calls := [] }

/-- A Unicode scalar value: a code point that is not a surrogate. -/
def Scalar (r : Nat) : Prop := r ≤ 0x10FFFF ∧ ¬ (0xD800 ≤ r ∧ r ≤ 0xDFFF)

/-- The UTF-8 encoding of a sequence of runes. -/
def encodeRunes : List Nat → Bytes
  | [] => []
  | r :: rs => EncodeRune r ++ encodeRunes rs

/-- Valid UTF-8: the encoding of a sequence of scalar values. -/
def IsUtf8 (s : Bytes) : Prop := ∃ rs : List Nat, (∀ r ∈ rs, Scalar r) ∧ s = encodeRunes rs

/-- The quoted form of one rune in `appendString`. -/
def quoteRune (r : Nat) : Bytes :=
  if r < 0x80 then (if htmlSafe r then [r] else escapeByte r)
  else if r = 0x2028 ∨ r = 0x2029 then [92, 117, 50, 48, 50, hexDigit (r % 16)]
  else EncodeRune r

/-- The quoted form of a sequence of runes. -/
def quoteRunes : List Nat → Bytes
  | [] => []
  | r :: rs => quoteRune r ++ quoteRunes rs

/-! ## Reading back what `Marshal` writes -/

/-- A byte that can continue a number literal. -/
def isNumByte (c : Nat) : Bool :=
  isDigit c || decide (c = 46 ∨ c = 101 ∨ c = 69 ∨ c = 43 ∨ c = 45)

/-- The scanner state after the first byte of a number. -/
def startState (c : Nat) : Option NumState :=
  if c = 45 then some .neg
  else if c = 48 then some .zero
  else if 49 ≤ c ∧ c ≤ 57 then some .one
  else none

/-- A number literal: the number states accept it and stop at its end. -/
def IsNumberLit (lit : Bytes) : Prop :=
  ∃ c cs s, lit = c :: cs ∧ startState c = some s ∧ scanNumber s cs = some (cs, [])

/-- The syntax tree of an encoded slice. -/
def astSlice {α : Type} (ast : α → Json) : GoSlice α → Json
  | .nil => .null
  | .mk es _ => .arr (es.map ast)

/-- A slice as a decoding into an empty variable leaves it: the elements,
nothing past them. -/
def GoSlice.fresh {α : Type} (f : α → α) : GoSlice α → GoSlice α
  | .nil => .nil
  | .mk es _ => .mk (es.map f) []

/-- A property of every element of the backing array of a slice. -/
def GoSlice.All {α : Type} (P : α → Prop) (s : GoSlice α) : Prop :=
  ∀ x ∈ s.backing, P x

/-- An encoder whose output starts a value and is read back by the scanner at
the given depth in front of a comma or a closing bracket. -/
def ReadsBack {α : Type} (enc : α → Bytes) (ast : α → Json) (P : α → Prop)
    (depth : Nat) : Prop :=
  ∀ x, P x →
    (∃ c t, enc x = c :: t ∧ isSpace c = false ∧ c ≠ 93) ∧
    ∀ fuel d rest, d = 44 ∨ d = 93 → (enc x ++ d :: rest).length < fuel →
      parseValue fuel depth (enc x ++ d :: rest) = .ok (ast x, d :: rest)

/-- A decoder that turns the syntax tree of a value back into the value,
whatever the variable decoded into holds (among those `Z` admits). -/
def Decodes {α : Type} (dec : α → Json → Option α) (ast : α → Json) (f : α → α)
    (P : α → Prop) (Z : α → Prop) : Prop :=
  ∀ x, P x → ∀ cur, Z cur → dec cur (ast x) = some (f x)

/-- A finite `float64` in normal form, as `ParseFloat` returns it. -/
def Float64.Finite (f : Float64) : Prop :=
  f.mant < 2 ^ 53 ∧ -1074 ≤ f.exp ∧ f.exp ≤ 971 ∧ (f.exp = -1074 ∨ 2 ^ 52 ≤ f.mant)

/-! ## float64: digits -/

/-- The number a run of digits denotes, continuing from `acc`. -/
def valueOf (acc : Nat) (ds : Bytes) : Nat := ds.foldl (fun a c => a * 10 + (c - 48)) acc

/-- Every byte is a decimal digit. -/
def AllDigits (ds : Bytes) : Prop := ∀ c ∈ ds, 48 ≤ c ∧ c ≤ 57

/-- The bytes after a run of digits do not start with a digit. -/
def NoDigitAhead (rest : Bytes) : Prop := ∀ c t, rest = c :: t → isDigit c = false

/-! ## float64: the text of a number -/

/-- The integer part of a number literal: `0`, or digits that start with a
digit other than `0`. -/
def IntPart (xs : Bytes) : Prop :=
  AllDigits xs ∧ (xs = [48] ∨ ∃ c t, xs = c :: t ∧ 49 ≤ c)

/-- The fraction part of a number literal: nothing, or a point and digits. -/
def FracPart (frac : Bytes) : Prop :=
  frac = [] ∨ ∃ ys, frac = 46 :: ys ∧ AllDigits ys ∧ ys ≠ []

/-- The exponent part of a number literal and its value: nothing, or `e`, a
sign and digits. -/
def ExpPart (expo : Bytes) (x : Int) : Prop :=
  (expo = [] ∧ x = 0) ∨
    ∃ sgn es, expo = 101 :: sgn :: es ∧ AllDigits es ∧ es ≠ [] ∧
      ((sgn = 43 ∧ x = (valueOf 0 es : Int)) ∨ (sgn = 45 ∧ x = -(valueOf 0 es : Int)))

/-- The shortest digits of a positive number: they start with a digit other
than `0`. -/
def LeadDigits (ds : Bytes) : Prop := AllDigits ds ∧ ∃ c t, ds = c :: t ∧ 49 ≤ c

/-- The syntax tree of an encoded `AOI`. -/
def astAOI (a : GoSlice (GoSlice (GoSlice Float64))) : Json :=
  astSlice (astSlice (astSlice fun f => .num (formatFloat f))) a

/-- The invariant of a decoded `AOI`: every coordinate in it is a finite
`float64` in normal form. -/
def AOIFinite (a : GoSlice (GoSlice (GoSlice Float64))) : Prop :=
  GoSlice.All (GoSlice.All (GoSlice.All Float64.Finite)) a

/-- The value of an `AOI` as a caller sees it: the elements of the slices,
without what their backing arrays hold past them. -/
def aoiFresh (a : GoSlice (GoSlice (GoSlice Float64))) : GoSlice (GoSlice (GoSlice Float64)) :=
  GoSlice.fresh (GoSlice.fresh (GoSlice.fresh id)) a

/-- The invariant of a decoded request. -/
def PredictRequest.Valid (r : PredictRequest) : Prop :=
  AOIFinite r.AOI ∧ IsUtf8 r.Date

/-! ## The request shape -/

/-- A coordinate: a number that `float64` can hold. -/
def isCoord : Json → Bool
  | .num lit => (ParseFloat lit).isSome
  | _ => false

/-- An array of the given elements. -/
def isArrayOf (elem : Json → Bool) : Json → Bool
  | .arr js => js.all elem
  | _ => false

/-- The shape of `aoi`: arrays of arrays of arrays of coordinates. -/
def isAOIShape (j : Json) : Bool := isArrayOf (isArrayOf (isArrayOf isCoord)) j

/-- A string literal. -/
def isStringLit : Json → Bool
  | .str raw => (unquote raw).isSome
  | _ => false

/-- A member of the request shape: `aoi` holds a polygon, `date` a string;
a member of another name may hold anything. -/
def memberShaped (m : Bytes × Json) : Bool :=
  match unquote m.1 with
  | none => false
  | some key =>
    match lookupField key with
    | some .aoi => isAOIShape m.2
    | some .date => isStringLit m.2
    | none => true

/-- The request shape: an object whose members `aoi` and `date`, where
present, hold a polygon of `float64` coordinates and a string. -/
def requestShaped : Json → Bool
  | .obj ms => ms.all memberShaped
  | _ => false

/-- The first value of a body, where the scanner accepts one. -/
def firstValue (body : Bytes) : Option Json :=
  match readValue body with
  | .ok (j, _) => some j
  | _ => none

/-- The elements of the slices of an `AOI`, without the backing arrays: what
the program can observe of it. -/
def aoiValue (a : GoSlice (GoSlice (GoSlice Float64))) :
    Option (List (Option (List (Option (List Float64))))) :=
  a.elems?.map fun ps => ps.map fun p => p.elems?.map fun rs => rs.map fun r => r.elems?

/-- The value of a request: the value of `AOI` and the bytes of `Date`. -/
def PredictRequest.value (r : PredictRequest) :
    Option (List (Option (List (Option (List Float64))))) × Bytes :=
  (aoiValue r.AOI, r.Date)

/-! ## Sample inputs -/

/-- A request body of the shape the page sends. -/
def sampleBody : Bytes :=
  ascii ("\x7b\"aoi\":[[[76.9,43.2],[77.1,43.2],[77.1,43.4],[76.9,43.2]]]," ++
    "\"date\":\"2024-07-01\"\x7d")

/-- A POST of `sampleBody` to `/predict`. -/
def sampleRequest : Request :=
  ⟨"POST", "/predict", [("Content-Type", "application/json")], sampleBody⟩

/-- The request `sampleBody` decodes to: one ring of four points. -/
def sampleDecoded : PredictRequest :=
  ⟨.mk [.mk [.mk [⟨false, 5411356427262362, -46⟩, ⟨false, 6079859496950170, -47⟩] [],
      .mk [⟨false, 5425430176097894, -46⟩, ⟨false, 6079859496950170, -47⟩] [],
      .mk [⟨false, 5425430176097894, -46⟩, ⟨false, 6108006994621235, -47⟩] [],
      .mk [⟨false, 5411356427262362, -46⟩, ⟨false, 6079859496950170, -47⟩] []] []] [],
    ascii "2024-07-01"⟩

/-- A request with the given body. -/
def requestOf (body : Bytes) : Request := ⟨"POST", "/predict", [], body⟩

/-- An upstream that answers 200 with a prediction. -/
def upstream200 : Bytes → PostResult :=
  fun _ => .response 200 (ascii "\x7b\"probability\":0.73,\"message\":\"high risk\"\x7d") none

/-- An upstream that answers 503. -/
def upstream503 : Bytes → PostResult :=
  fun _ => .response 503 (ascii "upstream overloaded") none

/-- An upstream whose status line carries the code `099`. -/
def upstream099 : Bytes → PostResult :=
  fun _ => .response 99 (ascii "odd") none

/-- An upstream that refuses the connection. -/
def upstreamRefused : Bytes → PostResult :=
  fun _ => .transportError ⟨ascii "Post", ascii "\"http://127.0.0.1:9/predict\"",
    ascii "dial tcp 127.0.0.1:9: connect: connection refused"⟩

/-- An upstream whose response body breaks off while it is read. -/
def upstreamCut : Bytes → PostResult :=
  fun _ => .response 200 (ascii "\x7b\"proba") (some (ascii "unexpected EOF"))

/-- Whether the first value of a body has the request shape. -/
def bodyShaped (body : Bytes) : Bool :=
  match firstValue body with
  | some j => requestShaped j
  | none => false

/-- A body with a coordinate beyond the range of `float64`. -/
def hugeBody : Bytes :=
  ascii "\x7b\"aoi\":[[[1e400,43.2]]],\"date\":\"2024-07-01\"\x7d"

/-- A body with white space, the members in another order, numbers in a longer
form, and a member the request type does not have. -/
def looseBody : Bytes :=
  ascii "\x7b \"date\": \"2024-07-01\", \"aoi\": [[[1.0, 2.50]]], \"note\": \"x\" \x7d"

/-- The text of a `*url.Error` is never empty. -/
theorem UrlError.Error_ne_nil (e : UrlError) : e.Error ≠ [] := by
  simp [UrlError.Error]

/-- The response of `http.Error` on a fresh writer, for a status code that
admits a body. -/
theorem Error_new (msg : Bytes) (code : Nat) (hc : 200 ≤ code ∧ code ≤ 999)
    (hb : bodyAllowedForStatus code = true) :
    Error .new msg code =
      ⟨[("X-Content-Type-Options", "nosniff"), ("Content-Type", "text/plain; charset=utf-8")],
        true, code,
        [("X-Content-Type-Options", "nosniff"), ("Content-Type", "text/plain; charset=utf-8")],
        msg ++ [10], [], false, []⟩ := by
  have h1 : ¬ (code < 100 ∨ 999 < code) := by omega
  have h2 : ¬ (100 ≤ code ∧ code ≤ 199 ∧ code ≠ 101) := by omega
  simp [Error, ResponseWriter.new, ResponseWriter.SetHeader, ResponseWriter.WriteHeader,
    ResponseWriter.Write, Header.Set, h1, h2, hb]

theorem predictHandler_decode_error (post : Bytes → PostResult) (r : Request)
    (h : ∀ req, Decode r.body ≠ .ok req) :
    predictHandler post .new r =
      ⟨Error .new (ascii "Invalid request") StatusBadRequest, [], []⟩ := by
  unfold predictHandler
  cases hd : Decode r.body with
  | ok req => exact absurd hd (h req)
  | invalid => rfl
  | outOfFuel => rfl

theorem predictHandler_transport_error (post : Bytes → PostResult) (r : Request)
    (req : PredictRequest) (e : UrlError)
    (hd : Decode r.body = .ok req) (hp : post (Marshal req) = .transportError e) :
    predictHandler post .new r =
      ⟨Error .new (ascii "Prediction service error: " ++ e.Error) StatusInternalServerError,
        [e.Error], [Marshal req]⟩ := by
  simp [predictHandler, hd, hp]

/-- The success path, for a status code that `WriteHeader` commits (101, or
200 and up, of three digits) and a body the status admits. -/
theorem predictHandler_success (post : Bytes → PostResult) (r : Request)
    (req : PredictRequest) (s : Nat) (b : Bytes)
    (hd : Decode r.body = .ok req) (hp : post (Marshal req) = .response s b none)
    (hs : (s = 101 ∨ 200 ≤ s) ∧ s ≤ 999) (hb : bodyAllowedForStatus s = true ∨ b = []) :
    predictHandler post .new r =
      ⟨⟨[("Content-Type", "application/json")], true, s, [], b, [], false, []⟩, [],
        [Marshal req]⟩ := by
  have h1 : ¬ (s < 100 ∨ 999 < s) := by omega
  have h2 : ¬ (100 ≤ s ∧ s ≤ 199 ∧ s ≠ 101) := by omega
  rcases hb with hb | hb
  · cases b <;>
      simp [predictHandler, hd, hp, ResponseWriter.new, ResponseWriter.SetHeader,
        ResponseWriter.WriteHeader, ResponseWriter.Write, Header.Set, h1, h2, hb]
  · subst hb
    simp [predictHandler, hd, hp, ResponseWriter.new, ResponseWriter.SetHeader,
      ResponseWriter.WriteHeader, ResponseWriter.Write, Header.Set, h1, h2]

/-- The success path for a status code that has not three digits:
`WriteHeader` panics, nothing is committed, and the server logs the panic. -/
theorem predictHandler_bad_status (post : Bytes → PostResult) (r : Request)
    (req : PredictRequest) (s : Nat) (b : Bytes)
    (hd : Decode r.body = .ok req) (hp : post (Marshal req) = .response s b none)
    (hs : s < 100 ∨ 999 < s) :
    predictHandler post .new r =
      ⟨⟨[], false, 0, [], [], [], true, [.panicServing s]⟩, [], [Marshal req]⟩ := by
  simp [predictHandler, hd, hp, ResponseWriter.new, ResponseWriter.SetHeader,
    ResponseWriter.WriteHeader, ResponseWriter.Write, hs]

/-- The path of a failed read of the upstream body: `http.Error` commits 500,
and the calls that follow cannot change it; the second `WriteHeader` leaves a
line in the log. -/
theorem predictHandler_read_error (post : Bytes → PostResult) (r : Request)
    (req : PredictRequest) (s : Nat) (b e : Bytes)
    (hd : Decode r.body = .ok req) (hp : post (Marshal req) = .response s b (some e)) :
    predictHandler post .new r =
      ⟨⟨[("Content-Type", "application/json"), ("X-Content-Type-Options", "nosniff")],
          true, StatusInternalServerError,
          [("X-Content-Type-Options", "nosniff"), ("Content-Type", "text/plain; charset=utf-8")],
          ascii "Prediction service error: " ++ e ++ [10] ++ b, [], false,
          [.superfluousWriteHeader]⟩,
        [e], [Marshal req]⟩ := by
  cases b <;>
    simp [predictHandler, hd, hp, Error, ResponseWriter.new, ResponseWriter.SetHeader,
      ResponseWriter.WriteHeader, ResponseWriter.Write, Header.Set, StatusInternalServerError,
      bodyAllowedForStatus]

/-- The log and the calls of a run do not depend on the writer. -/
theorem predictHandler_log_calls (post : Bytes → PostResult) (r : Request)
    (req : PredictRequest) (hd : Decode r.body = .ok req) :
    (predictHandler post .new r).calls = [Marshal req] ∧
      (predictHandler post .new r).log =
        match post (Marshal req) with
        | .transportError e => [e.Error]
        | .response _ _ (some e) => [e]
        | .response _ _ none => [] := by
  unfold predictHandler
  rw [hd]
  simp only
  cases post (Marshal req) with
  | transportError e => exact ⟨rfl, rfl⟩
  | response s b re => cases re <;> exact ⟨rfl, rfl⟩

theorem EncodeRune_two (r : Nat) (h1 : 0x80 ≤ r) (h2 : r ≤ 0x7FF) :
    EncodeRune r = [0xC0 + r / 64, 0x80 + r % 64] := by
  unfold EncodeRune
  rw [if_neg (by omega), if_pos (by omega)]

theorem EncodeRune_three (r : Nat) (h1 : 0x800 ≤ r) (h2 : r ≤ 0xFFFF)
    (h3 : ¬ (0xD800 ≤ r ∧ r ≤ 0xDFFF)) :
    EncodeRune r = [0xE0 + r / 4096, 0x80 + (r / 64) % 64, 0x80 + r % 64] := by
  have hin : (if 0x10FFFF < r ∨ (0xD800 ≤ r ∧ r ≤ 0xDFFF) then RuneError else r) = r :=
    if_neg (by omega)
  unfold EncodeRune
  rw [if_neg (by omega), if_neg (by omega)]
  simp only [hin]
  rw [if_pos (by omega)]

theorem EncodeRune_four (r : Nat) (h1 : 0x10000 ≤ r) (h2 : r ≤ 0x10FFFF) :
    EncodeRune r =
      [0xF0 + r / 262144, 0x80 + (r / 4096) % 64, 0x80 + (r / 64) % 64, 0x80 + r % 64] := by
  have hin : (if 0x10FFFF < r ∨ (0xD800 ≤ r ∧ r ≤ 0xDFFF) then RuneError else r) = r :=
    if_neg (by omega)
  unfold EncodeRune
  rw [if_neg (by omega), if_neg (by omega)]
  simp only [hin]
  rw [if_neg (by omega)]

theorem DecodeRune_EncodeRune (r : Nat) (hr : Scalar r) (h : 0x80 ≤ r) (tail : Bytes) :
    DecodeRune (EncodeRune r ++ tail) = (r, (EncodeRune r).length) := by
  obtain ⟨hmax, hsur⟩ := hr
  by_cases h2 : r ≤ 0x7FF
  · rw [EncodeRune_two r h h2]
    simp only [List.cons_append, List.nil_append, DecodeRune, isCont, List.length_cons,
      List.length_nil]
    rw [if_neg (by omega), if_pos (by omega)]
    simp only [decide_eq_true_eq]
    rw [if_pos (by omega)]
    simp only [Prod.mk.injEq, and_true]
    omega
  by_cases h3 : r ≤ 0xFFFF
  · rw [EncodeRune_three r (by omega) h3 hsur]
    simp only [List.cons_append, List.nil_append, DecodeRune, isCont, List.length_cons,
      List.length_nil]
    rw [if_neg (by omega), if_neg (by omega), if_pos (by omega)]
    simp only [Bool.not_eq_true', decide_eq_false_iff_not]
    rw [if_neg (by split <;> split <;> omega), if_neg (by omega)]
    simp only [Prod.mk.injEq, and_true]
    omega
  · rw [EncodeRune_four r (by omega) hmax]
    simp only [List.cons_append, List.nil_append, DecodeRune, isCont, List.length_cons,
      List.length_nil]
    rw [if_neg (by omega), if_neg (by omega), if_neg (by omega), if_pos (by omega)]
    simp only [Bool.not_eq_true', decide_eq_false_iff_not]
    rw [if_neg (by split <;> split <;> omega), if_neg (by omega), if_neg (by omega)]
    simp only [Prod.mk.injEq, and_true]
    omega

/-- The shape of the encoding of a rune past ASCII: a first byte and one to
three more, none of them ASCII. -/
theorem EncodeRune_shape (r : Nat) (hr : Scalar r) (h : 0x80 ≤ r) :
    ∃ c cs, EncodeRune r = c :: cs ∧ 0x80 ≤ c ∧ (∀ b ∈ cs, 0x80 ≤ b) ∧ cs.length ≤ 3 := by
  obtain ⟨hmax, hsur⟩ := hr
  by_cases h2 : r ≤ 0x7FF
  · rw [EncodeRune_two r h h2]
    exact ⟨_, _, rfl, by omega, by simp, by simp⟩
  by_cases h3 : r ≤ 0xFFFF
  · rw [EncodeRune_three r (by omega) h3 hsur]
    exact ⟨_, _, rfl, by omega, by simp, by simp⟩
  · rw [EncodeRune_four r (by omega) hmax]
    exact ⟨_, _, rfl, by omega, by simp, by simp⟩

theorem unquoteLoop_skip (xs rest : Bytes) :
    unquoteLoop xs.length (xs ++ rest) = unquoteLoop 0 rest := by
  induction xs with
  | nil => rfl
  | cons x xs ih => simpa [unquoteLoop] using ih

theorem appendStringLoop_skip (xs rest : Bytes) :
    appendStringLoop xs.length (xs ++ rest) = appendStringLoop 0 rest := by
  induction xs with
  | nil => rfl
  | cons x xs ih => simpa [appendStringLoop] using ih

theorem appendStringLoop_high (c : Nat) (t : Bytes) (hc : ¬ c < 0x80) :
    appendStringLoop 0 (c :: t) =
      if (DecodeRune ((c :: t).take 4)).1 = RuneError ∧ (DecodeRune ((c :: t).take 4)).2 = 1 then
        [92, 117, 102, 102, 102, 100] ++ appendStringLoop 0 t
      else if (DecodeRune ((c :: t).take 4)).1 = 0x2028 ∨
          (DecodeRune ((c :: t).take 4)).1 = 0x2029 then
        [92, 117, 50, 48, 50, hexDigit ((DecodeRune ((c :: t).take 4)).1 % 16)] ++
          appendStringLoop ((DecodeRune ((c :: t).take 4)).2 - 1) t
      else (c :: t).take (DecodeRune ((c :: t).take 4)).2 ++
        appendStringLoop ((DecodeRune ((c :: t).take 4)).2 - 1) t := by
  rw [appendStringLoop, if_neg hc]

theorem appendStringLoop_rune (r : Nat) (hr : Scalar r) (tail : Bytes) :
    appendStringLoop 0 (EncodeRune r ++ tail) = quoteRune r ++ appendStringLoop 0 tail := by
  by_cases h : r < 0x80
  · have he : EncodeRune r = [r] := by unfold EncodeRune; rw [if_pos (by omega)]
    rw [he]
    simp only [List.cons_append, List.nil_append, appendStringLoop, quoteRune]
    rw [if_pos h, if_pos h]
    rfl
  · obtain ⟨c, cs, he, hc, hcs, hlen⟩ := EncodeRune_shape r hr (by omega)
    have hd := DecodeRune_EncodeRune r hr (by omega) ((tail).take (3 - cs.length))
    have htake : (c :: (cs ++ tail)).take 4 = c :: cs ++ tail.take (3 - cs.length) := by
      simp only [List.take_succ_cons, List.cons_append, List.cons.injEq, true_and]
      rw [List.take_append_eq_append_take]
      rw [List.take_of_length_le (by omega)]
    have htake2 : (c :: (cs ++ tail)).take (cs.length + 1) = c :: cs := by
      simp only [List.take_succ_cons, List.cons.injEq, true_and]
      rw [List.take_append_eq_append_take, List.take_of_length_le (le_refl _)]
      simp
    rw [he] at hd
    rw [he, List.cons_append, appendStringLoop_high c (cs ++ tail) (by omega), htake, hd]
    simp only [List.length_cons, Nat.add_sub_cancel]
    have hne : ¬ (r = RuneError ∧ cs.length + 1 = 1) := by
      intro ⟨h1, h2⟩
      have : cs = [] := List.eq_nil_of_length_eq_zero (by omega)
      subst this
      rw [h1] at he
      simp [EncodeRune, RuneError] at he
    rw [if_neg hne]
    simp only [quoteRune, if_neg h]
    split
    · exact congrArg _ (appendStringLoop_skip cs tail)
    · rw [he, htake2, appendStringLoop_skip]

theorem appendStringLoop_encodeRunes (rs : List Nat) (hrs : ∀ r ∈ rs, Scalar r) :
    appendStringLoop 0 (encodeRunes rs) = quoteRunes rs := by
  induction rs with
  | nil => rfl
  | cons r rs ih =>
    simp only [encodeRunes, quoteRunes]
    rw [appendStringLoop_rune r (hrs r (by simp)), ih (fun x hx => hrs x (by simp [hx]))]

theorem scanString_high (xs rest : Bytes) (h : ∀ b ∈ xs, 0x80 ≤ b) :
    scanString .inString (xs ++ rest) =
      (scanString .inString rest).map fun p => (xs ++ p.1, p.2) := by
  induction xs with
  | nil => simp
  | cons x xs ih =>
    have hx : 0x80 ≤ x := h x (by simp)
    rw [List.cons_append, scanString, if_neg (by omega), if_neg (by omega), if_neg (by omega),
      ih (fun b hb => h b (by simp [hb]))]
    simp [Option.map_map, Function.comp_def]

theorem scanString_ascii (r : Nat) (h : r < 0x80) (rest : Bytes) :
    scanString .inString (quoteRune r ++ rest) =
      (scanString .inString rest).map fun p => (quoteRune r ++ p.1, p.2) := by
  interval_cases r <;> simp [quoteRune, htmlSafe, escapeByte, hexDigit, scanString, isEscChar, isHex, Option.map_map, Function.comp_def]

theorem scanString_rune (r : Nat) (hr : Scalar r) (rest : Bytes) :
    scanString .inString (quoteRune r ++ rest) =
      (scanString .inString rest).map fun p => (quoteRune r ++ p.1, p.2) := by
  by_cases h : r < 0x80
  · exact scanString_ascii r h rest
  · by_cases h2 : r = 0x2028 ∨ r = 0x2029
    · rcases h2 with rfl | rfl <;>
        simp [quoteRune, hexDigit, scanString, isHex, Option.map_map, Function.comp_def]
    · obtain ⟨c, cs, he, hc, hcs, hlen⟩ := EncodeRune_shape r hr (by omega)
      have hq : quoteRune r = c :: cs := by
        simp only [quoteRune, if_neg h, if_neg h2, he]
      rw [hq]
      exact scanString_high (c :: cs) rest (by
        intro b hb
        rcases List.mem_cons.mp hb with rfl | hb
        · exact hc
        · exact hcs b hb)

theorem scanString_quoteRunes (rs : List Nat) (hrs : ∀ r ∈ rs, Scalar r) (rest : Bytes) :
    scanString .inString (quoteRunes rs ++ 34 :: rest) = some (quoteRunes rs, rest) := by
  induction rs with
  | nil => simp [quoteRunes, scanString]
  | cons r rs ih =>
    simp only [quoteRunes, List.append_assoc]
    rw [scanString_rune r (hrs r (by simp)), ih (fun x hx => hrs x (by simp [hx]))]
    simp

theorem unquoteLoop_ascii (r : Nat) (h : r < 0x80) (rest : Bytes) :
    unquoteLoop 0 (quoteRune r ++ rest) = (unquoteLoop 0 rest).map fun out => r :: out := by
  interval_cases r <;> simp [quoteRune, htmlSafe, escapeByte, hexDigit, unquoteLoop, getu4, hexVal, unescapeByte, isSurrogate, EncodeRune]

theorem unquoteLoop_high (c : Nat) (t : Bytes) (hc : 0x80 ≤ c) :
    unquoteLoop 0 (c :: t) =
      (unquoteLoop ((DecodeRune (c :: t)).2 - 1) t).map
        fun out => EncodeRune (DecodeRune (c :: t)).1 ++ out := by
  have h1 : ¬ c = 92 := by omega
  have h2 : ¬ (c = 34 ∨ c < 32) := by omega
  have h3 : ¬ c < 0x80 := by omega
  simp only [unquoteLoop, if_neg h1, if_neg h2, if_neg h3]

theorem unquoteLoop_rune (r : Nat) (hr : Scalar r) (rest : Bytes) :
    unquoteLoop 0 (quoteRune r ++ rest) =
      (unquoteLoop 0 rest).map fun out => EncodeRune r ++ out := by
  by_cases h : r < 0x80
  · have he : EncodeRune r = [r] := by unfold EncodeRune; rw [if_pos (by omega)]
    rw [unquoteLoop_ascii r h rest, he]
    rfl
  · by_cases h2 : r = 0x2028 ∨ r = 0x2029
    · rcases h2 with rfl | rfl <;>
        simp [quoteRune, hexDigit, unquoteLoop, getu4, hexVal, isSurrogate]
    · obtain ⟨c, cs, he, hc, hcs, hlen⟩ := EncodeRune_shape r hr (by omega)
      have hq : quoteRune r = c :: cs := by
        simp only [quoteRune, if_neg h, if_neg h2, he]
      have hd := DecodeRune_EncodeRune r hr (by omega) rest
      rw [he] at hd
      rw [hq, List.cons_append, unquoteLoop_high c (cs ++ rest) hc, ← List.cons_append, hd]
      simp only [List.length_cons, Nat.add_sub_cancel]
      rw [unquoteLoop_skip]

theorem unquoteLoop_quoteRunes (rs : List Nat) (hrs : ∀ r ∈ rs, Scalar r) :
    unquoteLoop 0 (quoteRunes rs) = some (encodeRunes rs) := by
  induction rs with
  | nil => rfl
  | cons r rs ih =>
    simp only [quoteRunes, encodeRunes]
    rw [unquoteLoop_rune r (hrs r (by simp)), ih (fun x hx => hrs x (by simp [hx]))]
    rfl

/-- A valid UTF-8 string is read back from the literal `appendString` writes:
the scanner delimits the literal and `unquote` returns the string. -/
theorem appendString_roundtrip (s rest : Bytes) (hs : IsUtf8 s) :
    ∃ raw, scanString .inString ((appendString s).tail ++ rest) = some (raw, rest) ∧
      unquote raw = some s := by
  obtain ⟨rs, hrs, rfl⟩ := hs
  refine ⟨quoteRunes rs, ?_, ?_⟩
  · show scanString .inString ((appendStringLoop 0 (encodeRunes rs) ++ [34]) ++ rest) = _
    rw [appendStringLoop_encodeRunes rs hrs, List.append_assoc]
    exact scanString_quoteRunes rs hrs rest
  · exact unquoteLoop_quoteRunes rs hrs

theorem IsUtf8_nil : IsUtf8 [] := ⟨[], by simp, rfl⟩

theorem IsUtf8.rune (x : Nat) (s : Bytes) (hs : IsUtf8 s) : IsUtf8 (EncodeRune x ++ s) := by
  obtain ⟨rs, hrs, rfl⟩ := hs
  by_cases hx : Scalar x
  · exact ⟨x :: rs, by simpa [hx] using hrs, rfl⟩
  · refine ⟨RuneError :: rs, ?_, ?_⟩
    · intro r hr
      rcases List.mem_cons.mp hr with rfl | hr
      · simp [Scalar, RuneError]
      · exact hrs r hr
    · have : EncodeRune x = EncodeRune RuneError := by
        simp only [Scalar, not_and_or, not_le, not_not] at hx
        unfold EncodeRune
        rw [if_neg (by omega), if_neg (by omega)]
        have h1 : (if 0x10FFFF < x ∨ (0xD800 ≤ x ∧ x ≤ 0xDFFF) then RuneError else x) =
            RuneError := if_pos (by omega)
        simp only [h1]
        simp [RuneError]
      simp only [encodeRunes, this]

theorem IsUtf8.ascii (b : Nat) (hb : b < 0x80) (s : Bytes) (hs : IsUtf8 s) :
    IsUtf8 (b :: s) := by
  have he : EncodeRune b = [b] := by unfold EncodeRune; rw [if_pos (by omega)]
  have := IsUtf8.rune b s hs
  rwa [he] at this

theorem unescapeByte_lt (e b : Nat) (h : unescapeByte e = some b) : b < 0x80 := by
  unfold unescapeByte at h
  repeat' split at h
  all_goals simp at h
  all_goals omega

theorem unquoteLoop_utf8 (bs : Bytes) :
    ∀ skip out, unquoteLoop skip bs = some out → IsUtf8 out := by
  induction bs with
  | nil => intro skip out h; simp [unquoteLoop] at h; subst h; exact IsUtf8_nil
  | cons c cs ih =>
    intro skip out h
    cases skip with
    | succ k => simp only [unquoteLoop] at h; exact ih k out h
    | zero =>
      simp only [unquoteLoop] at h
      split at h
      · split at h
        · simp at h
        · split at h
          · split at h
            · simp at h
            · split at h
              · split at h
                all_goals
                  simp only [Option.map_eq_some'] at h
                  obtain ⟨o, ho, rfl⟩ := h
                  exact IsUtf8.rune _ _ (ih _ _ ho)
              · simp only [Option.map_eq_some'] at h
                obtain ⟨o, ho, rfl⟩ := h
                exact IsUtf8.rune _ _ (ih _ _ ho)
          · split at h
            · rename_i b hb
              simp only [Option.map_eq_some'] at h
              obtain ⟨o, ho, rfl⟩ := h
              exact IsUtf8.ascii _ (unescapeByte_lt _ _ hb) _ (ih _ _ ho)
            · simp at h
      · split at h
        · simp at h
        · split at h
          · rename_i hlt
            simp only [Option.map_eq_some'] at h
            obtain ⟨o, ho, rfl⟩ := h
            exact IsUtf8.ascii _ hlt _ (ih _ _ ho)
          · simp only [Option.map_eq_some'] at h
            obtain ⟨o, ho, rfl⟩ := h
            exact IsUtf8.rune _ _ (ih _ _ ho)

/-- What `unquote` returns is valid UTF-8. -/
theorem unquote_utf8 (raw s : Bytes) (h : unquote raw = some s) : IsUtf8 s :=
  unquoteLoop_utf8 raw 0 s h

theorem NumState.step_none (s : NumState) (d : Nat) (hd : isNumByte d = false) :
    s.step d = none := by
  have hd' : ¬ (48 ≤ d ∧ d ≤ 57) ∧ d ≠ 46 ∧ d ≠ 101 ∧ d ≠ 69 ∧ d ≠ 43 ∧ d ≠ 45 := by
    simp [isNumByte, isDigit] at hd; omega
  cases s <;> simp only [NumState.step, isDigit, decide_eq_true_eq] <;>
    (repeat' split) <;> first | rfl | (exfalso; omega)

theorem scanNumber_append (xs : Bytes) (d : Nat) (rest : Bytes) (hd : isNumByte d = false) :
    ∀ s, scanNumber s xs = some (xs, []) → scanNumber s (xs ++ d :: rest) = some (xs, d :: rest) := by
  induction xs with
  | nil =>
    intro s h
    simp only [scanNumber] at h
    simp only [List.nil_append, scanNumber, NumState.step_none s d hd]
    split at h
    · rename_i hacc; simp [hacc]
    · simp at h
  | cons x xs ih =>
    intro s h
    simp only [scanNumber] at h
    simp only [List.cons_append, scanNumber]
    cases hs : s.step x with
    | none =>
      rw [hs] at h
      simp only at h
      split at h <;> simp at h
    | some s' =>
      rw [hs] at h
      simp only [Option.map_eq_some'] at h ⊢
      obtain ⟨⟨a, b⟩, hab, he⟩ := h
      simp only [Prod.mk.injEq, List.cons.injEq, true_and] at he
      obtain ⟨rfl, rfl⟩ := he
      exact ⟨(a, d :: rest), ih s' hab, rfl⟩

theorem skipSpace_cons (c : Nat) (cs : Bytes) (h : isSpace c = false) :
    skipSpace (c :: cs) = c :: cs := by
  simp [skipSpace, h]

theorem parseValue_scalar (fuel depth : Nat) (c : Nat) (cs : Bytes)
    (hs : isSpace c = false) (h1 : c ≠ 123) (h2 : c ≠ 91) :
    parseValue (fuel + 1) depth (c :: cs) = parseScalar c cs := by
  rw [parseValue, skipSpace_cons c cs hs]
  simp only [if_neg h1, if_neg h2]

/-- The scanner reads a number literal up to a byte that cannot continue it. -/
theorem parseValue_number (lit : Bytes) (hl : IsNumberLit lit) (d : Nat) (rest : Bytes)
    (hd : isNumByte d = false) (fuel depth : Nat) :
    parseValue (fuel + 1) depth (lit ++ d :: rest) = .ok (.num lit, d :: rest) := by
  obtain ⟨c, cs, s, rfl, hst, hscan⟩ := hl
  have hsc := scanNumber_append cs d rest hd s hscan
  unfold startState at hst
  rw [List.cons_append]
  by_cases c1 : c = 45
  · subst c1
    simp only [if_true, Option.some.injEq] at hst
    subst hst
    rw [parseValue_scalar _ _ _ _ (by decide) (by decide) (by decide)]
    simp [parseScalar, hsc]
  rw [if_neg c1] at hst
  by_cases c2 : c = 48
  · subst c2
    simp only [if_true, Option.some.injEq] at hst
    subst hst
    rw [parseValue_scalar _ _ _ _ (by decide) (by decide) (by decide)]
    simp [parseScalar, hsc]
  rw [if_neg c2] at hst
  by_cases c3 : 49 ≤ c ∧ c ≤ 57
  · rw [if_pos c3] at hst
    simp only [Option.some.injEq] at hst
    subst hst
    rw [parseValue_scalar _ _ _ _ (by simp [isSpace]; omega) (by omega) (by omega)]
    unfold parseScalar
    rw [if_neg (by omega), if_neg (by omega), if_neg (by omega), if_pos c3, hsc]
  · rw [if_neg c3] at hst
    simp at hst

theorem parseElems_joinComma {α : Type} (enc : α → Bytes) (ast : α → Json) (P : α → Prop)
    (depth : Nat) (h : ReadsBack enc ast P depth) (F : Nat) (rest : Bytes) :
    ∀ (es : List α) (e : α), (∀ x ∈ e :: es, P x) → ∀ n,
      (joinComma ((e :: es).map enc) ++ 93 :: rest).length < n →
      (joinComma ((e :: es).map enc) ++ 93 :: rest).length < F →
      parseElems (parseValue F depth) n (joinComma ((e :: es).map enc) ++ 93 :: rest) =
        .ok ((e :: es).map ast, rest) := by
  intro es
  induction es with
  | nil =>
    intro e hP n hn hF
    cases n with
    | zero => simp at hn
    | succ n =>
      simp only [List.map, joinComma] at hn hF ⊢
      rw [parseElems, (h e (hP e (by simp))).2 F 93 rest (Or.inr rfl) hF]
      simp [skipSpace, isSpace]
  | cons e2 es ih =>
    intro e hP n hn hF
    cases n with
    | zero => simp at hn
    | succ n =>
      simp only [List.map, joinComma, List.append_assoc, List.cons_append] at hn hF ⊢
      rw [parseElems, (h e (hP e (by simp))).2 F 44 _ (Or.inl rfl) hF]
      have hlen : (joinComma (enc e2 :: es.map enc) ++ 93 :: rest).length < n := by
        simp only [List.length_append, List.length_cons] at hn ⊢; omega
      have hlenF : (joinComma (enc e2 :: es.map enc) ++ 93 :: rest).length < F := by
        simp only [List.length_append, List.length_cons] at hF ⊢; omega
      have := ih e2 (fun x hx => hP x (by simp at hx ⊢; tauto)) n
        (by simpa [List.map] using hlen) (by simpa [List.map] using hlenF)
      simp only [List.map] at this
      simp [skipSpace, isSpace, this, Res.map]

theorem GoSlice.All.elems {α : Type} {P : α → Prop} {es sp : List α}
    (h : GoSlice.All P (.mk es sp)) : ∀ x ∈ es, P x :=
  fun x hx => h x (by simp [GoSlice.backing, hx])

theorem ReadsBack_slice {α : Type} (enc : α → Bytes) (ast : α → Json) (P : α → Prop)
    (depth : Nat) (h : ReadsBack enc ast P (depth + 1)) (hd : depth < maxNestingDepth) :
    ReadsBack (encodeSlice enc) (astSlice ast) (GoSlice.All P) depth := by
  intro s hs
  cases s with
  | nil =>
    refine ⟨⟨110, [117, 108, 108], rfl, by decide, by decide⟩, ?_⟩
    intro fuel d rest _ hlen
    cases fuel with
    | zero => simp at hlen
    | succ fuel =>
      show parseValue (fuel + 1) depth (110 :: ([117, 108, 108] ++ d :: rest)) = _
      rw [parseValue_scalar _ _ _ _ (by decide) (by decide) (by decide)]
      simp [parseScalar, expectBytes, astSlice]
  | mk es sp =>
    refine ⟨⟨91, joinComma (es.map enc) ++ [93], by simp [encodeSlice], by decide, by decide⟩, ?_⟩
    intro fuel d rest _ hlen
    cases fuel with
    | zero => simp at hlen
    | succ fuel =>
      have hlen2 : (joinComma (es.map enc) ++ 93 :: d :: rest).length < fuel := by
        simp only [encodeSlice, List.cons_append, List.append_assoc, List.length_cons,
          List.length_append, List.length_nil] at hlen ⊢
        omega
      show parseValue (fuel + 1) depth (91 :: ((joinComma (es.map enc) ++ [93]) ++ d :: rest)) = _
      rw [List.append_assoc, List.singleton_append, parseValue,
        skipSpace_cons 91 _ (by decide)]
      simp only [if_neg (show ¬ (91 = 123) by decide), if_pos hd, if_true]
      cases es with
      | nil => simp [joinComma, skipSpace, isSpace, astSlice]
      | cons e es =>
        obtain ⟨c, t, hct, hsp, hne⟩ := (h e (hs e (by simp [GoSlice.backing]))).1
        have hj : ∃ t', joinComma ((e :: es).map enc) ++ 93 :: d :: rest = c :: t' := by
          cases es with
          | nil => exact ⟨t ++ 93 :: d :: rest, by simp [joinComma, hct]⟩
          | cons e2 es => exact ⟨_, by simp [joinComma, hct]; rfl⟩
        obtain ⟨t', ht'⟩ := hj
        have hpe := parseElems_joinComma enc ast P (depth + 1) h fuel (d :: rest) es e
          (GoSlice.All.elems hs) fuel hlen2 hlen2
        rw [ht'] at hpe ⊢
        rw [skipSpace_cons c _ hsp]
        simp only [if_neg hne, hpe, Res.map, astSlice]

/-- The encoder of `float64` is read back where its output is a number
literal. -/
theorem ReadsBack_float (P : Float64 → Prop) (h : ∀ f, P f → IsNumberLit (formatFloat f))
    (depth : Nat) : ReadsBack formatFloat (fun f => .num (formatFloat f)) P depth := by
  intro f hf
  have hl := h f hf
  refine ⟨?_, ?_⟩
  · obtain ⟨c, cs, s, hc, hst, _⟩ := hl
    refine ⟨c, cs, hc, ?_, ?_⟩
    · unfold startState at hst
      by_cases c1 : c = 45
      · subst c1; decide
      by_cases c2 : c = 48
      · subst c2; decide
      rw [if_neg c1, if_neg c2] at hst
      by_cases c3 : 49 ≤ c ∧ c ≤ 57
      · simp [isSpace]; omega
      · rw [if_neg c3] at hst; simp at hst
    · unfold startState at hst
      intro h93
      subst h93
      simp at hst
  · intro fuel d rest hd hlen
    cases fuel with
    | zero => simp at hlen
    | succ fuel =>
      exact parseValue_number _ hl d rest (by rcases hd with rfl | rfl <;> decide) fuel depth

theorem decodeElems_fresh {α : Type} (dec : α → Json → Option α) (ast : α → Json)
    (f : α → α) (P Z : α → Prop) (zero : α) (h : Decodes dec ast f P Z) (hz : Z zero) :
    ∀ es : List α, (∀ x ∈ es, P x) →
      decodeElems dec zero [] (es.map ast) = some (es.map f, []) := by
  intro es
  induction es with
  | nil => intro _; rfl
  | cons e es ih =>
    intro hP
    simp only [List.map, decodeElems, List.headD_nil, List.tail_nil]
    rw [h e (hP e (by simp)) zero hz, ih (fun x hx => hP x (by simp [hx]))]

theorem Decodes_slice {α : Type} (dec : α → Json → Option α) (ast : α → Json)
    (f : α → α) (P Z : α → Prop) (zero : α) (h : Decodes dec ast f P Z) (hz : Z zero) :
    Decodes (decodeSlice dec zero) (astSlice ast) (GoSlice.fresh f) (GoSlice.All P)
      (fun cur => cur.backing = []) := by
  intro s hs cur hcur
  cases s with
  | nil => rfl
  | mk es sp =>
    cases es with
    | nil => rfl
    | cons e es =>
      simp only [astSlice, List.map, decodeSlice, hcur]
      have := decodeElems_fresh dec ast f P Z zero h hz (e :: es) (GoSlice.All.elems hs)
      simp only [List.map] at this
      rw [this]
      rfl

theorem Decodes_float (P : Float64 → Prop)
    (h : ∀ f, P f → ParseFloat (formatFloat f) = some f) :
    Decodes decodeFloat (fun f => .num (formatFloat f)) id P (fun _ => True) := by
  intro f hf cur _
  exact h f hf

theorem decodeElems_all {α : Type} (dec : α → Json → Option α) (zero : α) (P : α → Prop)
    (hz : P zero) (hdec : ∀ cur j x, P cur → dec cur j = some x → P x) :
    ∀ (js : List Json) (slots xs left : List α), (∀ s ∈ slots, P s) →
      decodeElems dec zero slots js = some (xs, left) →
      (∀ x ∈ xs, P x) ∧ (∀ x ∈ left, P x) := by
  intro js
  induction js with
  | nil =>
    intro slots xs left hs h
    simp only [decodeElems, Option.some.injEq, Prod.mk.injEq] at h
    obtain ⟨rfl, rfl⟩ := h
    exact ⟨by simp, hs⟩
  | cons j js ih =>
    intro slots xs left hs h
    rw [decodeElems] at h
    have hhead : P (slots.headD zero) := by
      cases slots with
      | nil => exact hz
      | cons s ss => exact hs s (by simp)
    have htail : ∀ s ∈ slots.tail, P s := fun s hsm => hs s (List.mem_of_mem_tail hsm)
    cases hd : dec (slots.headD zero) j with
    | none => rw [hd] at h; simp at h
    | some x =>
      rw [hd] at h
      simp only at h
      cases hr : decodeElems dec zero slots.tail js with
      | none => rw [hr] at h; simp at h
      | some p =>
        obtain ⟨ys, l⟩ := p
        rw [hr] at h
        simp only [Option.some.injEq, Prod.mk.injEq] at h
        obtain ⟨rfl, rfl⟩ := h
        obtain ⟨h1, h2⟩ := ih slots.tail ys l htail hr
        refine ⟨?_, h2⟩
        intro y hy
        rcases List.mem_cons.mp hy with rfl | hy
        · exact hdec _ _ _ hhead hd
        · exact h1 y hy

theorem decodeSlice_all {α : Type} (dec : α → Json → Option α) (zero : α) (P : α → Prop)
    (hz : P zero) (hdec : ∀ cur j x, P cur → dec cur j = some x → P x)
    (v : GoSlice α) (j : Json) (w : GoSlice α) (hv : GoSlice.All P v)
    (h : decodeSlice dec zero v j = some w) : GoSlice.All P w := by
  cases j with
  | null => simp [decodeSlice] at h; subst h; intro x hx; simp [GoSlice.backing] at hx
  | arr js =>
    cases js with
    | nil => simp [decodeSlice] at h; subst h; intro x hx; simp [GoSlice.backing] at hx
    | cons j js =>
      simp only [decodeSlice, Option.map_eq_some'] at h
      obtain ⟨⟨xs, left⟩, hp, rfl⟩ := h
      obtain ⟨h1, h2⟩ := decodeElems_all dec zero P hz hdec (j :: js) v.backing xs left hv hp
      intro x hx
      simp only [GoSlice.backing, List.mem_append] at hx
      rcases hx with hx | hx
      · exact h1 x hx
      · exact h2 x hx
  | bool b => simp [decodeSlice] at h
  | num l => simp [decodeSlice] at h
  | str r => simp [decodeSlice] at h
  | obj m => simp [decodeSlice] at h

theorem GoSlice_All_nil {α : Type} (P : α → Prop) : GoSlice.All P (.nil : GoSlice α) := by
  intro x hx; simp [GoSlice.backing] at hx

/-! ## float64: rounding -/

theorem log2Loop_spec : ∀ fuel n, 0 < n → n < 2 ^ (fuel + 1) →
    2 ^ log2Loop fuel n ≤ n ∧ n < 2 ^ (log2Loop fuel n + 1) := by
  intro fuel
  induction fuel with
  | zero => intro n h0 h1; simp [log2Loop]; omega
  | succ fuel ih =>
    intro n h0 h1
    rw [log2Loop]
    split
    · rename_i h2
      have := ih (n / 2) (by omega) (by rw [pow_succ] at h1; omega)
      rw [pow_succ, pow_succ]
      omega
    · simp; omega

theorem log2_spec (n : Nat) (h : 0 < n) : 2 ^ log2 n ≤ n ∧ n < 2 ^ (log2 n + 1) :=
  log2Loop_spec n n h (by
    have := Nat.lt_two_pow n
    rw [pow_succ]; omega)

/-- The comparison of `den * 2^l` with `num` in the integer form the rounding
uses, as a comparison of rationals. -/
theorem pow_toNat_le (num den : Nat) (hd : 0 < den) (l : Int) :
    den * 2 ^ l.toNat ≤ num * 2 ^ (-l).toNat ↔ (2 : ℚ) ^ l ≤ (num : ℚ) / den := by
  have hdq : (0 : ℚ) < den := by exact_mod_cast hd
  rw [le_div_iff₀ hdq]
  rcases le_total 0 l with hl | hl
  · obtain ⟨k, rfl⟩ := Int.eq_ofNat_of_zero_le hl
    simp only [Int.toNat_ofNat, zpow_natCast]
    have : (-(k : Int)).toNat = 0 := by omega
    rw [this, pow_zero, mul_one, mul_comm]
    exact_mod_cast Iff.rfl
  · obtain ⟨k, hk⟩ := Int.eq_ofNat_of_zero_le (neg_nonneg.mpr hl)
    have hl' : l = -(k : Int) := by omega
    subst hl'
    have h1 : (-(k : Int)).toNat = 0 := by omega
    have h2 : (- -(k : Int)).toNat = k := by omega
    rw [h1, h2, pow_zero, mul_one, zpow_neg, zpow_natCast]
    have hp : (0 : ℚ) < 2 ^ k := by positivity
    rw [inv_mul_le_iff₀ hp]
    rw [mul_comm ((2 : ℚ) ^ k)]
    exact_mod_cast Iff.rfl

theorem two_zpow_pos (l : Int) : (0 : ℚ) < 2 ^ l := by positivity

theorem two_zpow_succ (l : Int) : (2 : ℚ) ^ (l + 1) = 2 ^ l * 2 := by
  rw [zpow_add₀ (by norm_num), zpow_one]

/-- The exponent `floorLog2` finds brackets the ratio between powers of two. -/
theorem floorLog2_spec (num den : Nat) (hn : 0 < num) (hd : 0 < den) :
    (2 : ℚ) ^ floorLog2 num den ≤ (num : ℚ) / den ∧
      (num : ℚ) / den < 2 ^ (floorLog2 num den + 1) := by
  obtain ⟨ha1, ha2⟩ := log2_spec num hn
  obtain ⟨hb1, hb2⟩ := log2_spec den hd
  have hdq : (0 : ℚ) < den := by exact_mod_cast hd
  have ha1q : (2 : ℚ) ^ (log2 num : Int) ≤ num := by
    rw [zpow_natCast]; exact_mod_cast ha1
  have ha2q : (num : ℚ) < 2 ^ (log2 num : Int) * 2 := by
    rw [zpow_natCast, ← pow_succ]; exact_mod_cast ha2
  have hb1q : (2 : ℚ) ^ (log2 den : Int) ≤ den := by
    rw [zpow_natCast]; exact_mod_cast hb1
  have hb2q : (den : ℚ) < 2 ^ (log2 den : Int) * 2 := by
    rw [zpow_natCast, ← pow_succ]; exact_mod_cast hb2
  have hsplit : (2 : ℚ) ^ (log2 num : Int) =
      2 ^ ((log2 num : Int) - (log2 den : Int)) * 2 ^ (log2 den : Int) := by
    rw [← zpow_add₀ (by norm_num)]; congr 1; ring
  have hpa := two_zpow_pos (log2 num : Int)
  have hpb := two_zpow_pos (log2 den : Int)
  have hpl := two_zpow_pos ((log2 num : Int) - (log2 den : Int))
  -- the ratio lies strictly between 2^(l-1) and 2^(l+1)
  have hup : (num : ℚ) / den < 2 ^ ((log2 num : Int) - (log2 den : Int)) * 2 := by
    rw [div_lt_iff₀ hdq]
    calc (num : ℚ) < 2 ^ (log2 num : Int) * 2 := ha2q
      _ = 2 ^ ((log2 num : Int) - (log2 den : Int)) * 2 * 2 ^ (log2 den : Int) := by
          rw [hsplit]; ring
      _ ≤ 2 ^ ((log2 num : Int) - (log2 den : Int)) * 2 * den := by
          apply mul_le_mul_of_nonneg_left hb1q; positivity
  have hlow : (2 : ℚ) ^ ((log2 num : Int) - (log2 den : Int)) ≤ (num : ℚ) / den * 2 := by
    rw [div_mul_eq_mul_div, le_div_iff₀ hdq]
    calc (2 : ℚ) ^ ((log2 num : Int) - (log2 den : Int)) * den
        ≤ 2 ^ ((log2 num : Int) - (log2 den : Int)) * (2 ^ (log2 den : Int) * 2) := by
          apply mul_le_mul_of_nonneg_left hb2q.le; positivity
      _ = 2 ^ (log2 num : Int) * 2 := by rw [hsplit]; ring
      _ ≤ num * 2 := by apply mul_le_mul_of_nonneg_right ha1q; norm_num
  unfold floorLog2
  simp only
  split
  · rename_i hc
    rw [pow_toNat_le num den hd] at hc
    exact ⟨hc, by rw [two_zpow_succ]; exact hup⟩
  · rename_i hc
    rw [pow_toNat_le num den hd, not_le] at hc
    refine ⟨?_, by rw [sub_add_cancel]; exact hc⟩
    have : (2 : ℚ) ^ ((log2 num : Int) - (log2 den : Int)) =
        2 ^ ((log2 num : Int) - (log2 den : Int) - 1) * 2 := by
      rw [← two_zpow_succ]; congr 1; ring
    rw [this] at hlow
    linarith

/-- The exponent that brackets the ratio is the one `floorLog2` finds. -/
theorem floorLog2_unique (num den : Nat) (hn : 0 < num) (hd : 0 < den) (l : Int)
    (h1 : (2 : ℚ) ^ l ≤ (num : ℚ) / den) (h2 : (num : ℚ) / den < 2 ^ (l + 1)) :
    floorLog2 num den = l := by
  obtain ⟨s1, s2⟩ := floorLog2_spec num den hn hd
  have a : l < floorLog2 num den + 1 :=
    (zpow_lt_zpow_iff_right₀ (by norm_num : (1 : ℚ) < 2)).mp (lt_of_le_of_lt h1 s2)
  have b : floorLog2 num den < l + 1 :=
    (zpow_lt_zpow_iff_right₀ (by norm_num : (1 : ℚ) < 2)).mp (lt_of_le_of_lt s1 h2)
  omega

/-- The quotient the rounding divides out, as a rational. -/
theorem scaled_ratio (num den : Nat) (e : Int) :
    ((num * 2 ^ (-e).toNat : Nat) : ℚ) / ((den * 2 ^ e.toNat : Nat) : ℚ) =
      (num : ℚ) / den / 2 ^ e := by
  rcases le_total 0 e with he | he
  · obtain ⟨k, rfl⟩ := Int.eq_ofNat_of_zero_le he
    have h1 : (-(k : Int)).toNat = 0 := by omega
    simp only [Int.toNat_ofNat, h1, pow_zero, mul_one, zpow_natCast]
    push_cast
    rw [div_div]
  · obtain ⟨k, hk⟩ := Int.eq_ofNat_of_zero_le (neg_nonneg.mpr he)
    have he' : e = -(k : Int) := by omega
    subst he'
    have h1 : (-(k : Int)).toNat = 0 := by omega
    have h2 : (- -(k : Int)).toNat = k := by omega
    simp only [h1, h2, pow_zero, mul_one, zpow_neg, zpow_natCast]
    push_cast
    rw [div_inv_eq_mul]
    ring

theorem scaled_den_pos (den : Nat) (hd : 0 < den) (e : Int) : 0 < den * 2 ^ e.toNat :=
  Nat.mul_pos hd (by positivity)

/-- What `roundRatio` returns is normalised and in range. -/
theorem roundRatio_finite (num den : Nat) (hn : 0 < num) (hd : 0 < den) (m : Nat) (e : Int)
    (h : roundRatio num den = some (m, e)) :
    m < 2 ^ 53 ∧ -1074 ≤ e ∧ e ≤ 971 ∧ (e = -1074 ∨ 2 ^ 52 ≤ m) := by
  obtain ⟨s1, s2⟩ := floorLog2_spec num den hn hd
  unfold roundRatio at h
  simp only at h
  generalize hL : floorLog2 num den = L at h s1 s2
  generalize hE : max (L - 52) (-1074) = E at h
  have hE1 : L - 52 ≤ E := by rw [← hE]; exact le_max_left _ _
  have hE2 : -1074 ≤ E := by rw [← hE]; exact le_max_right _ _
  have hE3 : E = -1074 ∨ E = L - 52 := by rw [← hE]; rcases max_choice (L - 52) (-1074) with h | h <;> omega
  have hdpos := scaled_den_pos den hd E
  have hsc := scaled_ratio num den E
  generalize hnn : num * 2 ^ (-E).toNat = n at h hsc
  generalize hdd : den * 2 ^ E.toNat = d at h hsc hdpos
  have hdq : (0 : ℚ) < d := by exact_mod_cast hdpos
  have hpE := two_zpow_pos E
  -- the quotient is below 2^53
  have hq1 : n / d < 2 ^ 53 := by
    rw [Nat.div_lt_iff_lt_mul hdpos]
    have : (n : ℚ) < (2 ^ 53 : ℕ) * d := by
      rw [← div_lt_iff₀ hdq, hsc, div_lt_iff₀ hpE]
      calc (num : ℚ) / den < 2 ^ (L + 1) := s2
        _ ≤ 2 ^ (53 + E) := zpow_le_zpow_right₀ (by norm_num) (by omega)
        _ = ((2 ^ 53 : ℕ) : ℚ) * 2 ^ E := by
            rw [zpow_add₀ (by norm_num)]; norm_num
    exact_mod_cast this
  -- a normal quotient is at least 2^52
  have hq2 : E = L - 52 → 2 ^ 52 ≤ n / d := by
    intro hEL
    rw [Nat.le_div_iff_mul_le hdpos]
    have : ((2 ^ 52 : ℕ) : ℚ) * d ≤ n := by
      rw [← le_div_iff₀ hdq, hsc, le_div_iff₀ hpE]
      calc ((2 ^ 52 : ℕ) : ℚ) * 2 ^ E = 2 ^ (52 + E) := by
            rw [zpow_add₀ (by norm_num)]; norm_num
        _ = 2 ^ L := by congr 1; omega
        _ ≤ (num : ℚ) / den := s1
    exact_mod_cast this
  generalize hq : n / d = q at h hq1 hq2
  generalize hr : n % d = r at h
  generalize hm : (if 2 * r < d then q else if d < 2 * r then q + 1 else q + q % 2) = m' at h
  have hm1 : q ≤ m' ∧ m' ≤ q + 1 := by
    rw [← hm]; split
    · omega
    · split <;> omega
  split at h
  · split at h
    · simp at h
    · rename_i hle
      simp only [Option.some.injEq, Prod.mk.injEq] at h
      obtain ⟨rfl, rfl⟩ := h
      simp only at hle
      exact ⟨by norm_num, by omega, by omega, Or.inr (le_refl _)⟩
  · rename_i hne
    split at h
    · simp at h
    · rename_i hle
      simp only [Option.some.injEq, Prod.mk.injEq] at h
      obtain ⟨rfl, rfl⟩ := h
      simp only at hle
      refine ⟨by omega, by omega, by omega, ?_⟩
      rcases hE3 with h3 | h3
      · exact Or.inl h3
      · exact Or.inr (le_trans (hq2 h3) hm1.1)

/-- A ratio that is a `float64` exactly is rounded to that `float64`. -/
theorem roundRatio_exact (num den m : Nat) (e : Int) (hn : 0 < num) (hd : 0 < den)
    (hm : m < 2 ^ 53) (he1 : -1074 ≤ e) (he2 : e ≤ 971)
    (hnorm : e = -1074 ∨ 2 ^ 52 ≤ m) (hv : (num : ℚ) / den = m * 2 ^ e) :
    roundRatio num den = some (m, e) := by
  obtain ⟨s1, s2⟩ := floorLog2_spec num den hn hd
  have hpe := two_zpow_pos e
  have hmq : (m : ℚ) < 2 ^ (53 : Int) := by
    rw [show (53 : Int) = ((53 : Nat) : Int) by rfl, zpow_natCast]; exact_mod_cast hm
  -- the exponent the rounding chooses is `e`
  have hE : max (floorLog2 num den - 52) (-1074) = e := by
    have hlt : floorLog2 num den < 53 + e := by
      have : (2 : ℚ) ^ floorLog2 num den < 2 ^ (53 + e) := by
        calc (2 : ℚ) ^ floorLog2 num den ≤ (num : ℚ) / den := s1
          _ = m * 2 ^ e := hv
          _ < 2 ^ (53 : Int) * 2 ^ e := by
              apply mul_lt_mul_of_pos_right hmq hpe
          _ = 2 ^ (53 + e) := by rw [zpow_add₀ (by norm_num)]
      exact (zpow_lt_zpow_iff_right₀ (by norm_num : (1 : ℚ) < 2)).mp this
    rcases hnorm with h | h
    · rw [h] at hlt ⊢
      exact max_eq_right (by omega)
    · have hge : 52 + e < floorLog2 num den + 1 := by
        have hmq2 : (2 : ℚ) ^ (52 : Int) ≤ m := by
          rw [show (52 : Int) = ((52 : Nat) : Int) by rfl, zpow_natCast]; exact_mod_cast h
        have : (2 : ℚ) ^ (52 + e) < 2 ^ (floorLog2 num den + 1) := by
          calc (2 : ℚ) ^ (52 + e) = 2 ^ (52 : Int) * 2 ^ e := by rw [zpow_add₀ (by norm_num)]
            _ ≤ m * 2 ^ e := by apply mul_le_mul_of_nonneg_right hmq2 hpe.le
            _ = (num : ℚ) / den := hv.symm
            _ < 2 ^ (floorLog2 num den + 1) := s2
        exact (zpow_lt_zpow_iff_right₀ (by norm_num : (1 : ℚ) < 2)).mp this
      have : floorLog2 num den - 52 = e := by omega
      rw [this]
      exact max_eq_left he1
  have hdpos := scaled_den_pos den hd e
  have hsc := scaled_ratio num den e
  unfold roundRatio
  simp only [hE]
  generalize hnn : num * 2 ^ (-e).toNat = n at hsc
  generalize hdd : den * 2 ^ e.toNat = d at hsc hdpos
  have hdq : (0 : ℚ) < d := by exact_mod_cast hdpos
  have hnd : n = m * d := by
    have : (n : ℚ) = m * d := by
      rw [hv, mul_div_assoc, div_self hpe.ne', mul_one] at hsc
      rw [div_eq_iff hdq.ne'] at hsc
      exact hsc
    exact_mod_cast this
  have hq : n / d = m := by rw [hnd]; exact Nat.mul_div_cancel m hdpos
  have hr : n % d = 0 := by rw [hnd]; exact Nat.mul_mod_left m d
  rw [hq, hr]
  have hmne : ¬ m = 2 ^ 53 := by omega
  have hle : ¬ (971 < e) := by omega
  simp only [mul_zero, hdpos, if_true, if_neg hmne, if_neg hle]

theorem Float64.zero_finite : Float64.zero.Finite := by
  simp [Float64.Finite, Float64.zero]

/-- What `ParseFloat` returns is a finite `float64` in normal form. -/
theorem ParseFloat_finite (lit : Bytes) (f : Float64) (h : ParseFloat lit = some f) :
    f.Finite := by
  unfold ParseFloat at h
  cases hd : readDecimal lit with
  | none => rw [hd] at h; simp at h
  | some d =>
    rw [hd] at h
    simp only at h
    split at h
    · simp only [Option.some.injEq] at h
      subst h
      simp [Float64.Finite]
    · rename_i hne
      simp only [roundDecimal, Option.map_eq_some'] at h
      obtain ⟨⟨m, e⟩, hr, rfl⟩ := h
      exact roundRatio_finite _ _ (Nat.mul_pos (Nat.pos_of_ne_zero hne) (by positivity))
        (by positivity) m e hr

/-- The value written out in full is read back as the `float64` it is. -/
theorem roundDecimal_exactDecimal (m : Nat) (e : Int) (hm0 : 0 < m) (hm : m < 2 ^ 53)
    (he1 : -1074 ≤ e) (he2 : e ≤ 971) (hnorm : e = -1074 ∨ 2 ^ 52 ≤ m) :
    (exactDecimal m e).1 ≠ 0 ∧
      roundDecimal (exactDecimal m e).1 (exactDecimal m e).2 = some (m, e) := by
  have hpos : 0 < m * 2 ^ e.toNat * 5 ^ (-e).toNat := by positivity
  refine ⟨by simp only [exactDecimal]; omega, ?_⟩
  simp only [exactDecimal, roundDecimal]
  have hs1 : (min e 0).toNat = 0 := by omega
  have hs2 : (-(min e 0)).toNat = (-e).toNat := by omega
  rw [hs1, hs2, pow_zero, mul_one]
  apply roundRatio_exact _ _ m e hpos (by positivity) hm he1 he2 hnorm
  rcases le_total 0 e with he | he
  · obtain ⟨k, rfl⟩ := Int.eq_ofNat_of_zero_le he
    have h1 : (-(k : Int)).toNat = 0 := by omega
    simp only [Int.toNat_ofNat, h1, pow_zero, mul_one, zpow_natCast]
    push_cast
    simp
  · obtain ⟨k, hk⟩ := Int.eq_ofNat_of_zero_le (neg_nonneg.mpr he)
    have he' : e = -(k : Int) := by omega
    subst he'
    have h1 : (-(k : Int)).toNat = 0 := by omega
    have h2 : (- -(k : Int)).toNat = k := by omega
    simp only [h1, h2, pow_zero, mul_one, zpow_neg, zpow_natCast]
    push_cast
    have : (10 : ℚ) ^ k = 2 ^ k * 5 ^ k := by rw [← mul_pow]; norm_num
    rw [this]
    field_simp
    ring

theorem pick_readsBack (m : Nat) (e : Int) (a b : Nat) (s : Int) (r : Nat × Int)
    (hr : readsBack m e r.1 r.2 = true) :
    readsBack m e
      (if readsBack m e a s then (a, s) else if readsBack m e b s then (b, s) else r).1
      (if readsBack m e a s then (a, s) else if readsBack m e b s then (b, s) else r).2 =
      true := by
  split
  · assumption
  · split
    · assumption
    · exact hr

/-- The decimal the search returns is read back as the `float64`. -/
theorem shortestFrom_readsBack (m : Nat) (e : Int) (hm0 : 0 < m) (hm : m < 2 ^ 53)
    (he1 : -1074 ≤ e) (he2 : e ≤ 971) (hnorm : e = -1074 ∨ 2 ^ 52 ≤ m) :
    ∀ fuel s, readsBack m e (shortestFrom m e fuel s).1 (shortestFrom m e fuel s).2 = true := by
  intro fuel
  induction fuel with
  | zero =>
    intro s
    simp only [shortestFrom, readsBack, decide_eq_true_eq]
    exact roundDecimal_exactDecimal m e hm0 hm he1 he2 hnorm
  | succ fuel ih =>
    intro s
    rw [shortestFrom]
    exact pick_readsBack m e _ _ s _ (ih (s - 1))

theorem shortest_readsBack (m : Nat) (e : Int) (hm0 : 0 < m) (hm : m < 2 ^ 53)
    (he1 : -1074 ≤ e) (he2 : e ≤ 971) (hnorm : e = -1074 ∨ 2 ^ 52 ≤ m) :
    (shortest m e).1 ≠ 0 ∧ roundDecimal (shortest m e).1 (shortest m e).2 = some (m, e) := by
  have := shortestFrom_readsBack m e hm0 hm he1 he2 hnorm
    (startScale m e + 1075).toNat (startScale m e)
  simpa [readsBack, shortest] using this

theorem valueOf_append (acc : Nat) (xs ys : Bytes) :
    valueOf acc (xs ++ ys) = valueOf (valueOf acc xs) ys := by
  simp [valueOf, List.foldl_append]

theorem valueOf_zeros (acc k : Nat) : valueOf acc (List.replicate k 48) = acc * 10 ^ k := by
  induction k generalizing acc with
  | zero => simp [valueOf]
  | succ k ih =>
    rw [List.replicate_succ, show valueOf acc (48 :: List.replicate k 48) =
      valueOf (acc * 10 + (48 - 48)) (List.replicate k 48) from rfl, ih]
    simp [pow_succ]; ring

theorem AllDigits.append {xs ys : Bytes} (hx : AllDigits xs) (hy : AllDigits ys) :
    AllDigits (xs ++ ys) := by
  intro c hc
  rcases List.mem_append.mp hc with h | h
  · exact hx c h
  · exact hy c h

theorem AllDigits.zeros (k : Nat) : AllDigits (List.replicate k 48) := by
  intro c hc
  rw [List.eq_of_mem_replicate hc]; omega

theorem AllDigits.take {ds : Bytes} (h : AllDigits ds) (k : Nat) : AllDigits (ds.take k) :=
  fun c hc => h c (List.mem_of_mem_take hc)

theorem AllDigits.drop {ds : Bytes} (h : AllDigits ds) (k : Nat) : AllDigits (ds.drop k) :=
  fun c hc => h c (List.mem_of_mem_drop hc)

theorem readDigits_digits (ds : Bytes) (hds : AllDigits ds) (rest : Bytes)
    (hrest : NoDigitAhead rest) :
    ∀ acc, readDigits acc (ds ++ rest) = (valueOf acc ds, ds.length, rest) := by
  induction ds with
  | nil =>
    intro acc
    cases rest with
    | nil => rfl
    | cons c t =>
      simp only [List.nil_append, readDigits, hrest c t rfl]
      rfl
  | cons d ds ih =>
    intro acc
    have hd := hds d (by simp)
    have hdig : isDigit d = true := by simp [isDigit]; omega
    rw [List.cons_append, readDigits, if_pos hdig, ih (fun c hc => hds c (by simp [hc]))]
    rfl

theorem digitsLoop_spec : ∀ fuel n acc, n < 10 ^ (fuel + 1) →
    ∃ ds, digitsLoop (fuel + 1) n acc = ds ++ acc ∧ AllDigits ds ∧ ds ≠ [] ∧
      valueOf 0 ds = n ∧ (0 < n → ∀ c t, ds = c :: t → 49 ≤ c) := by
  intro fuel
  induction fuel with
  | zero =>
    intro n acc h
    refine ⟨[48 + n], ?_, ?_, by simp, ?_, ?_⟩
    · rw [digitsLoop, if_pos (by omega)]; rfl
    · intro c hc; simp at hc; omega
    · simp [valueOf]
    · intro h0 c t hct; simp at hct; omega
  | succ fuel ih =>
    intro n acc h
    rw [digitsLoop]
    split
    · rename_i hlt
      refine ⟨[48 + n], rfl, ?_, by simp, ?_, ?_⟩
      · intro c hc; simp at hc; omega
      · simp [valueOf]
      · intro h0 c t hct; simp at hct; omega
    · rename_i hge
      obtain ⟨ds, h1, h2, h3, h4, h5⟩ := ih (n / 10) ((48 + n % 10) :: acc)
        (by rw [pow_succ] at h; omega)
      refine ⟨ds ++ [48 + n % 10], by rw [h1]; simp, ?_, by simp, ?_, ?_⟩
      · apply AllDigits.append h2
        intro c hc; simp at hc; omega
      · rw [valueOf_append, h4]; simp [valueOf]; omega
      · intro h0 c t hct
        cases ds with
        | nil => exact absurd rfl h3
        | cons c' t' =>
          simp only [List.cons_append, List.cons.injEq] at hct
          have := h5 (by omega) c' t' rfl
          omega

theorem digitsOf_spec (n : Nat) :
    AllDigits (digitsOf n) ∧ digitsOf n ≠ [] ∧ valueOf 0 (digitsOf n) = n ∧
      (0 < n → ∀ c t, digitsOf n = c :: t → 49 ≤ c) := by
  obtain ⟨ds, h1, h2, h3, h4, h5⟩ := digitsLoop_spec n n []
    (lt_of_lt_of_le (Nat.lt_pow_self (by norm_num) n)
      (Nat.pow_le_pow_right (by norm_num) (Nat.le_succ n)))
  have : digitsOf n = ds := by simp [digitsOf, h1]
  rw [this]
  exact ⟨h2, h3, h4, h5⟩

theorem NoDigitAhead_nil : NoDigitAhead [] := by
  intro c t h; simp at h

theorem NoDigitAhead.cons (c : Nat) (t : Bytes) (h : isDigit c = false) :
    NoDigitAhead (c :: t) := by
  intro c' t' h'
  simp only [List.cons.injEq] at h'
  rw [← h'.1]; exact h

theorem ExpPart.noDigit {expo : Bytes} {x : Int} (h : ExpPart expo x) : NoDigitAhead expo := by
  rcases h with ⟨rfl, _⟩ | ⟨sgn, es, rfl, _⟩
  · exact NoDigitAhead_nil
  · exact NoDigitAhead.cons _ _ (by decide)

theorem readExponent_expPart {expo : Bytes} {x : Int} (h : ExpPart expo x) :
    readExponent expo = some x := by
  rcases h with ⟨rfl, rfl⟩ | ⟨sgn, es, rfl, hes, hne, hs⟩
  · rfl
  · have hr := readDigits_digits es hes [] NoDigitAhead_nil 0
    rw [List.append_nil] at hr
    have hlen : es.length ≠ 0 := by
      intro h0; exact hne (List.eq_nil_of_length_eq_zero h0)
    rcases hs with ⟨rfl, rfl⟩ | ⟨rfl, rfl⟩
    · simp [readExponent, hr, hlen]
    · simp [readExponent, hr, hlen]

/-- The body of `readDecimal` after the sign. -/
theorem readDecimal_unsigned (neg : Bool) (xs frac expo : Bytes) (x : Int)
    (hx : IntPart xs) (hf : FracPart frac) (he : ExpPart expo x) (lit : Bytes)
    (hneg : decide (lit.head? = some 45) = neg)
    (hbody : (if neg then lit.tail else lit) = xs ++ frac ++ expo) :
    readDecimal lit = some ⟨neg, valueOf 0 (xs ++ frac.tail), x - (frac.tail.length : Int)⟩ := by
  have hxs : xs.length ≠ 0 := by
    rcases hx.2 with rfl | ⟨c, t, rfl, _⟩ <;> simp
  unfold readDecimal
  simp only [hneg, hbody]
  rcases hf with rfl | ⟨ys, rfl, hys, _⟩
  · have h1 := readDigits_digits xs hx.1 expo he.noDigit 0
    rw [List.append_nil, h1]
    simp only [hxs, if_false]
    have hnot : ∀ s', expo ≠ 46 :: s' := by
      intro s' h
      rcases he with ⟨rfl, _⟩ | ⟨sgn, es, rfl, _⟩ <;> simp at h
    have hm : (match expo with
        | 46 :: s' => readDigits (valueOf 0 xs) s'
        | s' => (valueOf 0 xs, 0, s')) = (valueOf 0 xs, 0, expo) := by
      rcases he with ⟨rfl, _⟩ | ⟨sgn, es, rfl, _⟩ <;> rfl
    simp only [hm, readExponent_expPart he]
    simp
  · have h1 := readDigits_digits xs hx.1 (46 :: ys ++ expo)
      (NoDigitAhead.cons _ _ (by decide)) 0
    rw [List.append_assoc, h1]
    simp only [hxs, if_false, List.cons_append]
    rw [readDigits_digits ys hys expo he.noDigit]
    simp only [readExponent_expPart he, List.tail_cons, valueOf_append]

theorem scanNumber_digits (st : NumState)
    (hst : ∀ d, 48 ≤ d ∧ d ≤ 57 → st.step d = some st) (ds : Bytes) (hds : AllDigits ds)
    (t : Bytes) :
    scanNumber st (ds ++ t) = (scanNumber st t).map fun p => (ds ++ p.1, p.2) := by
  induction ds with
  | nil => simp
  | cons d ds ih =>
    rw [List.cons_append, scanNumber, hst d (hds d (by simp))]
    simp only
    rw [ih (fun c hc => hds c (by simp [hc]))]
    simp [Option.map_map, Function.comp_def]

theorem step_one_digit (d : Nat) (h : 48 ≤ d ∧ d ≤ 57) : NumState.one.step d = some .one := by
  simp [NumState.step, isDigit, h]

theorem step_dot0_digit (d : Nat) (h : 48 ≤ d ∧ d ≤ 57) :
    NumState.dot0.step d = some .dot0 := by
  simp [NumState.step, isDigit, h]

theorem step_e0_digit (d : Nat) (h : 48 ≤ d ∧ d ≤ 57) : NumState.e0.step d = some .e0 := by
  simp [NumState.step, isDigit, h]

theorem scanNumber_expPart {expo : Bytes} {x : Int} (he : ExpPart expo x) (st : NumState)
    (hst : st = .zero ∨ st = .one ∨ st = .dot0) :
    scanNumber st expo = some (expo, []) := by
  rcases he with ⟨rfl, _⟩ | ⟨sgn, es, rfl, hes, hne, hs⟩
  · rcases hst with rfl | rfl | rfl <;> rfl
  · cases es with
    | nil => exact absurd rfl hne
    | cons e0 es =>
      have he0 := hes e0 (by simp)
      have hloop := scanNumber_digits .e0 step_e0_digit es
        (fun c hc => hes c (by simp [hc])) []
      rw [List.append_nil] at hloop
      have hend : scanNumber .e0 [] = some ([], []) := rfl
      rw [hend] at hloop
      have h1 : st.step 101 = some .e := by
        rcases hst with rfl | rfl | rfl <;> simp [NumState.step, isDigit]
      have h2 : NumState.e.step sgn = some .eSign := by
        rcases hs with ⟨rfl, _⟩ | ⟨rfl, _⟩ <;> simp [NumState.step]
      have h3 : NumState.eSign.step e0 = some .e0 := by
        simp [NumState.step, isDigit, he0]
      simp [scanNumber, h1, h2, h3, hloop]

theorem scanNumber_tail (frac expo : Bytes) (x : Int) (hf : FracPart frac)
    (he : ExpPart expo x) (st : NumState) (hst : st = .zero ∨ st = .one) :
    scanNumber st (frac ++ expo) = some (frac ++ expo, []) := by
  rcases hf with rfl | ⟨ys, rfl, hys, hne⟩
  · rw [List.nil_append]
    exact scanNumber_expPart he st (by rcases hst with h | h <;> simp [h])
  · cases ys with
    | nil => exact absurd rfl hne
    | cons y0 ys =>
      have hy0 := hys y0 (by simp)
      have hloop := scanNumber_digits .dot0 step_dot0_digit ys
        (fun c hc => hys c (by simp [hc])) expo
      rw [scanNumber_expPart he .dot0 (by simp)] at hloop
      have h1 : st.step 46 = some .dot := by
        rcases hst with rfl | rfl <;> simp [NumState.step, isDigit]
      have h2 : NumState.dot.step y0 = some .dot0 := by
        simp [NumState.step, isDigit, hy0]
      simp [scanNumber, h1, h2, hloop]

/-- A sign, an integer part, a fraction and an exponent make a number
literal. -/
theorem isNumberLit_parts (xs frac expo : Bytes) (x : Int)
    (hx : IntPart xs) (hf : FracPart frac) (he : ExpPart expo x) :
    IsNumberLit (xs ++ frac ++ expo) ∧ IsNumberLit (45 :: (xs ++ frac ++ expo)) := by
  have htail := scanNumber_tail frac expo x hf he
  rcases hx.2 with rfl | ⟨c, t, rfl, hc⟩
  · constructor
    · exact ⟨48, frac ++ expo, .zero, by simp, rfl, htail .zero (Or.inl rfl)⟩
    · refine ⟨45, 48 :: (frac ++ expo), .neg, by simp, rfl, ?_⟩
      rw [scanNumber]
      simp [NumState.step, htail .zero (Or.inl rfl)]
  · have hc2 := hx.1 c (by simp)
    have hloop := scanNumber_digits .one step_one_digit t
      (fun d hd => hx.1 d (by simp [hd])) (frac ++ expo)
    rw [htail .one (Or.inr rfl)] at hloop
    simp only [Option.map_some'] at hloop
    have hst : startState c = some .one := by
      unfold startState
      rw [if_neg (by omega), if_neg (by omega), if_pos (by omega)]
    constructor
    · exact ⟨c, t ++ (frac ++ expo), .one, by simp, hst, hloop⟩
    · refine ⟨45, c :: (t ++ (frac ++ expo)), .neg, by simp, rfl, ?_⟩
      have hstep : NumState.neg.step c = some .one := by
        simp only [NumState.step]
        rw [if_neg (by omega), if_pos (by omega)]
      rw [scanNumber, hstep]
      simp [hloop]

theorem digitsOf_lead (d : Nat) (hd : 0 < d) : LeadDigits (digitsOf d) := by
  obtain ⟨h1, h2, _, h4⟩ := digitsOf_spec d
  refine ⟨h1, ?_⟩
  cases hds : digitsOf d with
  | nil => exact absurd hds h2
  | cons c t => exact ⟨c, t, rfl, h4 hd c t hds⟩

theorem valueOf_zeros_lead (k : Nat) (ds : Bytes) :
    valueOf 0 (48 :: (List.replicate k 48 ++ ds)) = valueOf 0 ds := by
  have h0 : valueOf 0 (48 :: (List.replicate k 48 ++ ds)) =
      valueOf 0 (List.replicate (k + 1) 48 ++ ds) := by
    rw [List.replicate_succ]; rfl
  rw [h0, valueOf_append, valueOf_zeros, Nat.zero_mul]

/-- The format `f` on shortest digits: its parts, and the decimal they denote
rounds as `d * 10^s` does. -/
theorem fmtF_parts (ds : Bytes) (hds : LeadDigits ds) (s : Int) :
    ∃ xs frac, fmtF ds ((ds.length : Int) + s) = xs ++ frac ++ [] ∧ IntPart xs ∧
      FracPart frac ∧
      roundDecimal (valueOf 0 (xs ++ frac.tail)) (0 - (frac.tail.length : Int)) =
        roundDecimal (valueOf 0 ds) s := by
  obtain ⟨hall, c, t, rfl, hc⟩ := hds
  generalize hn : (c :: t).length = n
  have hn1 : 1 ≤ n := by rw [← hn]; simp
  unfold fmtF
  simp only [hn]
  rcases le_or_lt 0 s with hs | hs
  · -- an integer: the digits and `s` zeros
    obtain ⟨k, rfl⟩ := Int.eq_ofNat_of_zero_le hs
    refine ⟨(c :: t) ++ List.replicate k 48, [], ?_, ?_, Or.inl rfl, ?_⟩
    · rw [if_pos (by omega), if_neg (by omega)]
      have h1 : ((n : Int) + k).toNat = n + k := by omega
      have h2 : ((n : Int) + k - n).toNat = k := by omega
      rw [h1, h2, List.take_of_length_le (by omega)]
      simp
    · exact ⟨hall.append (AllDigits.zeros k), Or.inr ⟨c, t ++ List.replicate k 48, by simp, hc⟩⟩
    · simp only [List.tail_nil, List.append_nil, List.length_nil, Nat.cast_zero, sub_zero,
        valueOf_append, valueOf_zeros, roundDecimal]
      have h1 : (-(k : Int)).toNat = 0 := by omega
      simp [h1]
  · rcases lt_or_le 0 ((n : Int) + s) with hdp | hdp
    · -- digits on both sides of the point
      obtain ⟨p, hp⟩ := Int.eq_ofNat_of_zero_le hdp.le
      have hp1 : 1 ≤ p := by omega
      have hp2 : p < n := by omega
      refine ⟨(c :: t).take p, 46 :: (c :: t).drop p, ?_, ?_, Or.inr ⟨_, rfl, hall.drop p, ?_⟩, ?_⟩
      · rw [if_pos hdp, if_pos (by omega), hp]
        have h1 : ((p : Int) - n).toNat = 0 := by omega
        have h2 : (-(p : Int)).toNat = 0 := by omega
        simp [h1, h2]
      · refine ⟨hall.take p, Or.inr ⟨c, t.take (p - 1), ?_, hc⟩⟩
        obtain ⟨q, rfl⟩ : ∃ q, p = q + 1 := ⟨p - 1, by omega⟩
        simp
      · intro h
        have := congrArg List.length h
        simp only [List.length_drop, List.length_nil, hn] at this
        omega
      · simp only [List.tail_cons, List.take_append_drop, List.length_drop, hn]
        congr 1
        omega
    · -- all digits after the point
      obtain ⟨z, hz⟩ := Int.eq_ofNat_of_zero_le (neg_nonneg.mpr hdp)
      refine ⟨[48], 46 :: (List.replicate z 48 ++ (c :: t)), ?_, ⟨?_, Or.inl rfl⟩,
        Or.inr ⟨_, rfl, (AllDigits.zeros z).append hall, by simp⟩, ?_⟩
      · rw [if_neg (by omega), if_pos (by omega)]
        have h1 : ((n : Int) + s).toNat = 0 := by omega
        have h2 : (-((n : Int) + s)).toNat = z := by omega
        rw [h1, h2]
        simp
      · intro d hd; simp at hd; omega
      · simp only [List.tail_cons, List.singleton_append, valueOf_zeros_lead,
          List.length_append, List.length_replicate, hn]
        congr 1
        push_cast
        omega

theorem cleanExponent_of_reverse (b : Bytes) (d z s e : Nat) (rest : Bytes)
    (h : b.reverse = d :: z :: s :: e :: rest) :
    cleanExponent b =
      if e = 101 ∧ (s = 45 ∨ s = 43) ∧ z = 48 then (d :: s :: e :: rest).reverse else b := by
  unfold cleanExponent
  rw [h]

theorem last_three (es : Bytes) (h : 3 ≤ es.length) :
    ∃ init a3 a2 a1, es = init ++ [a3, a2, a1] := by
  rcases List.eq_nil_or_concat es with rfl | ⟨l1, a1, rfl⟩
  · simp at h
  rcases List.eq_nil_or_concat l1 with rfl | ⟨l2, a2, rfl⟩
  · simp at h
  rcases List.eq_nil_or_concat l2 with rfl | ⟨l3, a3, rfl⟩
  · simp at h
  exact ⟨l3, a3, a2, a1, by simp⟩

/-- The clean-up of the exponent undoes the padding to two digits and nothing
else. -/
theorem cleanExponent_pad (p : Bytes) (sgn : Nat) (hs : sgn = 45 ∨ sgn = 43) (es : Bytes)
    (hes : AllDigits es) (hne : es ≠ [])
    (hlead : 2 ≤ es.length → ∃ c t, es = c :: t ∧ 49 ≤ c) :
    cleanExponent (p ++ [101, sgn] ++ (if es.length < 2 then 48 :: es else es)) =
      p ++ [101, sgn] ++ es := by
  rcases Nat.lt_or_ge es.length 2 with h2 | h2
  · -- one digit: padded, then cleaned
    rw [if_pos h2]
    cases es with
    | nil => exact absurd rfl hne
    | cons d t =>
      have ht : t = [] := List.eq_nil_of_length_eq_zero (by simp at h2; omega)
      subst ht
      rw [cleanExponent_of_reverse _ d 48 sgn 101 p.reverse (by simp)]
      rw [if_pos ⟨rfl, hs, rfl⟩]
      simp
  · rw [if_neg (by omega)]
    rcases Nat.lt_or_ge es.length 3 with h3 | h3
    · -- two digits: the first is not `0`
      obtain ⟨c, t, rfl, hc⟩ := hlead h2
      cases t with
      | nil => simp at h2
      | cons d2 t =>
        have ht : t = [] := List.eq_nil_of_length_eq_zero (by simp at h3; omega)
        subst ht
        rw [cleanExponent_of_reverse _ d2 c sgn 101 p.reverse (by simp)]
        rw [if_neg (by omega)]
    · -- three digits or more: a digit stands where the sign would
      obtain ⟨init, a3, a2, a1, rfl⟩ := last_three es h3
      have ha3 := hes a3 (by simp)
      cases hr : (p ++ [101, sgn] ++ init).reverse with
      | nil =>
        have := congrArg List.length hr
        simp at this
      | cons e rest =>
        rw [cleanExponent_of_reverse _ a1 a2 a3 e rest (by
          rw [← List.append_assoc, List.reverse_append, hr]; rfl)]
        rw [if_neg (by omega)]

theorem digitsOf_zero : digitsOf 0 = [48] := rfl

/-- The format `e` on shortest digits, after the clean-up of the exponent:
its parts, and the decimal they denote. -/
theorem fmtE_parts (ds : Bytes) (hds : LeadDigits ds) (s : Int) :
    ∃ xs frac expo x, cleanExponent (fmtE ds ((ds.length : Int) + s)) = xs ++ frac ++ expo ∧
      IntPart xs ∧ FracPart frac ∧ ExpPart expo x ∧
      valueOf 0 (xs ++ frac.tail) = valueOf 0 ds ∧ x - (frac.tail.length : Int) = s := by
  obtain ⟨hall, c, t, rfl, hc⟩ := hds
  generalize hx : ((c :: t).length : Int) + s - 1 = x
  obtain ⟨e1, e2, e3, e4⟩ := digitsOf_spec x.natAbs
  have hsgn : (if x < 0 then 45 else 43) = 45 ∨ (if x < 0 then 45 else 43) = 43 := by
    split <;> simp
  have hclean := cleanExponent_pad
    ([c] ++ (if 1 < (c :: t).length then 46 :: t else []))
    (if x < 0 then 45 else 43) hsgn (digitsOf x.natAbs) e1 e2 (by
      intro h2
      have hpos : 0 < x.natAbs := by
        rcases Nat.eq_zero_or_pos x.natAbs with h0 | h0
        · rw [h0, digitsOf_zero] at h2; simp at h2
        · exact h0
      cases hd : digitsOf x.natAbs with
      | nil => exact absurd hd e2
      | cons c' t' => exact ⟨c', t', rfl, e4 hpos c' t' hd⟩)
  have hfmt : fmtE (c :: t) (((c :: t).length : Int) + s) =
      [c] ++ (if 1 < (c :: t).length then 46 :: t else []) ++
        [101, if x < 0 then 45 else 43] ++
        (if (digitsOf x.natAbs).length < 2 then 48 :: digitsOf x.natAbs
          else digitsOf x.natAbs) := by
    simp only [fmtE, hx]
    rfl
  rw [hfmt, hclean]
  refine ⟨[c], if 1 < (c :: t).length then 46 :: t else [],
    101 :: (if x < 0 then 45 else 43) :: digitsOf x.natAbs, x, by simp, ?_, ?_, ?_, ?_, ?_⟩
  · exact ⟨fun d hd => hall d (by simp at hd; simp [hd]), Or.inr ⟨c, [], rfl, hc⟩⟩
  · cases t with
    | nil => exact Or.inl (by simp)
    | cons t0 t =>
      refine Or.inr ⟨t0 :: t, by simp, fun d hd => hall d (by simp at hd ⊢; tauto), by simp⟩
  · refine Or.inr ⟨_, _, rfl, e1, e2, ?_⟩
    rw [e3]
    by_cases hneg : x < 0
    · exact Or.inr ⟨by simp [hneg], by omega⟩
    · exact Or.inl ⟨by simp [hneg], by omega⟩
  · cases t with
    | nil => simp
    | cons t0 t => simp
  · cases t with
    | nil => simp at hx ⊢; omega
    | cons t0 t => simp at hx ⊢; omega

theorem roundRatio_zero (den : Nat) (hd : 0 < den) (m : Nat) (e : Int)
    (h : roundRatio 0 den = some (m, e)) : m = 0 := by
  unfold roundRatio at h
  simp only [Nat.zero_mul, Nat.zero_div, Nat.zero_mod, Nat.mul_zero] at h
  have hpos : 0 < den * 2 ^ (max (floorLog2 0 den - 52) (-1074)).toNat :=
    Nat.mul_pos hd (by positivity)
  rw [if_pos hpos] at h
  have hne : ¬ ((0 : Nat) = 2 ^ 53) := by norm_num
  simp only [if_neg hne] at h
  split at h
  · simp at h
  · simp only [Option.some.injEq, Prod.mk.injEq] at h
    exact h.1.symm

/-- The parts of the text of a finite `float64`, and the decimal they
denote. -/
theorem formatFloat_parts (f : Float64) (hf : f.Finite) :
    ∃ xs frac expo x,
      formatFloat f = (if f.neg then [45] else []) ++ (xs ++ frac ++ expo) ∧
      IntPart xs ∧ FracPart frac ∧ ExpPart expo x ∧
      ((f.mant = 0 ∧ valueOf 0 (xs ++ frac.tail) = 0) ∨
        (valueOf 0 (xs ++ frac.tail) ≠ 0 ∧
          roundDecimal (valueOf 0 (xs ++ frac.tail)) (x - (frac.tail.length : Int)) =
            some (f.mant, f.exp))) := by
  obtain ⟨hm, he1, he2, hnorm⟩ := hf
  by_cases h0 : f.mant = 0
  · refine ⟨[48], [], [], 0, ?_, ⟨?_, Or.inl rfl⟩, Or.inl rfl, Or.inl ⟨rfl, rfl⟩,
      Or.inl ⟨h0, rfl⟩⟩
    · simp [formatFloat, h0]
    · intro d hd; simp at hd; omega
  · obtain ⟨hd0, hrb⟩ := shortest_readsBack f.mant f.exp (Nat.pos_of_ne_zero h0) hm he1 he2 hnorm
    have hlead := digitsOf_lead (shortest f.mant f.exp).1 (Nat.pos_of_ne_zero hd0)
    have hval := (digitsOf_spec (shortest f.mant f.exp).1).2.2.1
    have hfmt : formatFloat f = (if f.neg then [45] else []) ++
        (if useExponent f.mant f.exp then
          cleanExponent (fmtE (digitsOf (shortest f.mant f.exp).1)
            (((digitsOf (shortest f.mant f.exp).1).length : Int) + (shortest f.mant f.exp).2))
        else fmtF (digitsOf (shortest f.mant f.exp).1)
            (((digitsOf (shortest f.mant f.exp).1).length : Int) + (shortest f.mant f.exp).2)) := by
      simp only [formatFloat, if_neg h0]
    have hnz : ∀ v x', roundDecimal v x' = some (f.mant, f.exp) → v ≠ 0 := by
      intro v x' hr hv
      subst hv
      simp only [roundDecimal, Nat.zero_mul] at hr
      exact h0 (roundRatio_zero _ (by positivity) _ _ hr)
    rw [hfmt]
    by_cases hue : useExponent f.mant f.exp = true
    · rw [if_pos hue]
      obtain ⟨xs, frac, expo, x, h1, h2, h3, h4, h5, h6⟩ :=
        fmtE_parts (digitsOf (shortest f.mant f.exp).1) hlead (shortest f.mant f.exp).2
      refine ⟨xs, frac, expo, x, by rw [h1], h2, h3, h4, Or.inr ?_⟩
      rw [h5, h6, hval]
      exact ⟨hd0, hrb⟩
    · rw [if_neg hue]
      obtain ⟨xs, frac, h1, h2, h3, h4⟩ :=
        fmtF_parts (digitsOf (shortest f.mant f.exp).1) hlead (shortest f.mant f.exp).2
      rw [hval, hrb] at h4
      exact ⟨xs, frac, [], 0, by rw [h1], h2, h3, Or.inl ⟨rfl, rfl⟩, Or.inr ⟨hnz _ _ h4, h4⟩⟩

/-- The text of a finite `float64` is a number literal. -/
theorem formatFloat_numberLit (f : Float64) (h : f.Finite) :
    IsNumberLit (formatFloat f) := by
  obtain ⟨xs, frac, expo, x, h1, h2, h3, h4, _⟩ := formatFloat_parts f h
  rw [h1]
  obtain ⟨p, n⟩ := isNumberLit_parts xs frac expo x h2 h3 h4
  cases f.neg
  · simpa using p
  · simpa using n

theorem intPart_head_ne_minus {xs : Bytes} (h : IntPart xs) (t : Bytes) :
    decide ((xs ++ t).head? = some 45) = false := by
  rcases h.2 with rfl | ⟨c, r, rfl, hc⟩
  · simp
  · have := h.1 c (by simp)
    simp; omega

/-- The `float64` round trip of `strconv`: `ParseFloat` reads the text of a
finite `float64` back as the same `float64`. -/
theorem ParseFloat_formatFloat (f : Float64) (h : f.Finite) :
    ParseFloat (formatFloat f) = some f := by
  obtain ⟨xs, frac, expo, x, h1, h2, h3, h4, h5⟩ := formatFloat_parts f h
  have hread : readDecimal (formatFloat f) =
      some ⟨f.neg, valueOf 0 (xs ++ frac.tail), x - (frac.tail.length : Int)⟩ := by
    apply readDecimal_unsigned f.neg xs frac expo x h2 h3 h4
    · rw [h1]
      cases f.neg
      · simpa using intPart_head_ne_minus h2 (frac ++ expo)
      · simp
    · rw [h1]
      cases f.neg <;> simp
  unfold ParseFloat
  rw [hread]
  simp only
  rcases h5 with ⟨hm, hv⟩ | ⟨hv, hr⟩
  · rw [if_pos hv]
    obtain ⟨_, _, _, hnorm⟩ := h
    have hexp : f.exp = -1074 := by
      rcases hnorm with h | h
      · exact h
      · rw [hm] at h; norm_num at h
    cases f with
    | mk neg mant exp =>
      simp only at hm hexp
      subst hm hexp
      rfl
  · rw [if_neg hv, hr]
    rfl

theorem encodeAOI_readsBack : ReadsBack encodeAOI astAOI AOIFinite 1 := by
  have h3 : ReadsBack formatFloat (fun f => Json.num (formatFloat f)) Float64.Finite 4 :=
    ReadsBack_float _ formatFloat_numberLit 4
  have h2 := ReadsBack_slice _ _ _ 3 h3 (by decide)
  have h1 := ReadsBack_slice _ _ _ 2 h2 (by decide)
  exact ReadsBack_slice _ _ _ 1 h1 (by decide)

theorem decodeAOI_astAOI (a : GoSlice (GoSlice (GoSlice Float64))) (ha : AOIFinite a) :
    decodeAOI .nil (astAOI a) = some (aoiFresh a) := by
  have h3 := Decodes_float Float64.Finite ParseFloat_formatFloat
  have h2 := Decodes_slice _ _ _ _ _ Float64.zero h3 trivial
  have h1 := Decodes_slice _ _ _ _ _ (GoSlice.nil : GoSlice Float64) h2 rfl
  have h0 := Decodes_slice _ _ _ _ _ (GoSlice.nil : GoSlice (GoSlice Float64)) h1 rfl
  exact h0 a ha .nil rfl

theorem decodeAOI_finite (v : GoSlice (GoSlice (GoSlice Float64))) (j : Json)
    (w : GoSlice (GoSlice (GoSlice Float64))) (hv : AOIFinite v)
    (h : decodeAOI v j = some w) : AOIFinite w := by
  have hf : ∀ (cur : Float64) (j : Json) (x : Float64), cur.Finite →
      decodeFloat cur j = some x → x.Finite := by
    intro cur j x hc hd
    cases j with
    | num lit => exact ParseFloat_finite lit x hd
    | null => simp [decodeFloat] at hd; subst hd; exact hc
    | bool b => simp [decodeFloat] at hd
    | str r => simp [decodeFloat] at hd
    | arr r => simp [decodeFloat] at hd
    | obj r => simp [decodeFloat] at hd
  have h3 := fun v j w => decodeSlice_all decodeFloat Float64.zero Float64.Finite
    Float64.zero_finite hf v j w
  have h2 := fun v j w => decodeSlice_all decodeRing .nil (GoSlice.All Float64.Finite)
    (GoSlice_All_nil _) h3 v j w
  exact decodeSlice_all decodePolygon .nil _ (GoSlice_All_nil _) h2 v j w hv h

theorem decodeMembers_valid (ms : List (Bytes × Json)) :
    ∀ r r' : PredictRequest, r.Valid → decodeMembers r ms = some r' → r'.Valid := by
  induction ms with
  | nil => intro r r' hr h; simp [decodeMembers] at h; subst h; exact hr
  | cons m ms ih =>
    intro r r' hr h
    obtain ⟨k, v⟩ := m
    rw [decodeMembers] at h
    cases hk : unquote k with
    | none => rw [hk] at h; simp at h
    | some key =>
      rw [hk] at h
      simp only at h
      cases hl : lookupField key with
      | none => rw [hl] at h; exact ih r r' hr h
      | some fld =>
        rw [hl] at h
        cases fld with
        | aoi =>
          simp only at h
          cases ha : decodeAOI r.AOI v with
          | none => rw [ha] at h; simp at h
          | some a =>
            rw [ha] at h
            simp only at h
            exact ih ⟨a, r.Date⟩ r' ⟨decodeAOI_finite _ _ _ hr.1 ha, hr.2⟩ h
        | date =>
          simp only at h
          cases hd : decodeString r.Date v with
          | none => rw [hd] at h; simp at h
          | some d =>
            rw [hd] at h
            simp only at h
            refine ih ⟨r.AOI, d⟩ r' ⟨hr.1, ?_⟩ h
            show IsUtf8 d
            cases v with
            | str raw => exact unquote_utf8 raw d hd
            | null => simp [decodeString] at hd; subst hd; exact hr.2
            | bool b => simp [decodeString] at hd
            | num b => simp [decodeString] at hd
            | arr b => simp [decodeString] at hd
            | obj b => simp [decodeString] at hd

theorem PredictRequest.zero_valid : PredictRequest.zero.Valid :=
  ⟨GoSlice_All_nil _, IsUtf8_nil⟩

/-- Every request `Decode` returns holds finite coordinates and a date in
valid UTF-8. -/
theorem Decode_valid (body : Bytes) (r : PredictRequest) (h : Decode body = .ok r) :
    r.Valid := by
  unfold Decode at h
  cases hv : readValue body with
  | invalid => rw [hv] at h; simp at h
  | outOfFuel => rw [hv] at h; simp at h
  | ok p =>
    obtain ⟨j, rest⟩ := p
    rw [hv] at h
    simp only at h
    cases hu : unmarshal PredictRequest.zero j with
    | none => rw [hu] at h; simp at h
    | some r0 =>
      rw [hu] at h
      simp only [Res.ok.injEq] at h
      subst h
      cases j with
      | obj ms => exact decodeMembers_valid ms _ _ PredictRequest.zero_valid hu
      | null => simp [unmarshal] at hu; subst hu; exact PredictRequest.zero_valid
      | bool b => simp [unmarshal] at hu
      | num b => simp [unmarshal] at hu
      | str b => simp [unmarshal] at hu
      | arr b => simp [unmarshal] at hu

theorem Marshal_eq (r : PredictRequest) :
    Marshal r = 123 :: 34 :: 97 :: 111 :: 105 :: 34 :: 58 ::
      (encodeAOI r.AOI ++ 44 :: 34 :: 100 :: 97 :: 116 :: 101 :: 34 :: 58 ::
        34 :: (appendStringLoop 0 r.Date ++ 34 :: [125])) := by
  simp [Marshal, ascii, appendString]

/-- The scanner reads what `Marshal` writes as an object of two members. -/
theorem readValue_Marshal (r : PredictRequest) (hr : r.Valid) :
    ∃ raw, unquote raw = some r.Date ∧
      readValue (Marshal r) =
        .ok (.obj [([97, 111, 105], astAOI r.AOI), ([100, 97, 116, 101], .str raw)], []) := by
  obtain ⟨raw, hscan, hunq⟩ := appendString_roundtrip r.Date [125] hr.2
  refine ⟨raw, hunq, ?_⟩
  have hscan' : scanString .inString (appendStringLoop 0 r.Date ++ 34 :: [125]) =
      some (raw, [125]) := by
    have : (appendString r.Date).tail ++ [125] = appendStringLoop 0 r.Date ++ 34 :: [125] := by
      simp [appendString]
    rw [← this]; exact hscan
  unfold readValue
  generalize hlen : (Marshal r).length = n
  rw [Marshal_eq] at hlen ⊢
  simp only [List.length_cons, List.length_append] at hlen
  obtain ⟨k, rfl⟩ : ∃ k, n = k + 2 := ⟨n - 2, by omega⟩
  have haoi := (encodeAOI_readsBack r.AOI hr.1).2 (k + 2) 44
    (34 :: 100 :: 97 :: 116 :: 101 :: 34 :: 58 :: 34 ::
      (appendStringLoop 0 r.Date ++ 34 :: [125])) (Or.inl rfl)
    (by simp only [List.length_cons, List.length_append]; omega)
  rw [parseValue, skipSpace_cons 123 _ (by decide)]
  simp only [if_true, if_pos (show 0 < maxNestingDepth by decide)]
  rw [skipSpace_cons 34 _ (by decide)]
  simp only [if_neg (show ¬ (34 = 125) by decide)]
  rw [parseMembers, skipSpace_cons 34 _ (by decide)]
  simp only [if_true, scanString, if_neg (show ¬ (97 = 34) by decide),
    if_neg (show ¬ (97 = 92) by decide), if_neg (show ¬ (97 < 32) by decide),
    if_neg (show ¬ (111 = 34) by decide),
    if_neg (show ¬ (111 = 92) by decide), if_neg (show ¬ (111 < 32) by decide),
    if_neg (show ¬ (105 = 34) by decide),
    if_neg (show ¬ (105 = 92) by decide), if_neg (show ¬ (105 < 32) by decide),
    Option.map_some']
  rw [skipSpace_cons 58 _ (by decide)]
  simp only [if_true, haoi]
  rw [skipSpace_cons 44 _ (by decide)]
  simp only [if_true]
  rw [parseMembers, skipSpace_cons 34 _ (by decide)]
  simp only [if_true, scanString, if_neg (show ¬ (97 = 34) by decide),
    if_neg (show ¬ (97 = 92) by decide), if_neg (show ¬ (97 < 32) by decide),
    if_neg (show ¬ (100 = 34) by decide),
    if_neg (show ¬ (100 = 92) by decide), if_neg (show ¬ (100 < 32) by decide),
    if_neg (show ¬ (116 = 34) by decide),
    if_neg (show ¬ (116 = 92) by decide), if_neg (show ¬ (116 < 32) by decide),
    if_neg (show ¬ (101 = 34) by decide),
    if_neg (show ¬ (101 = 92) by decide), if_neg (show ¬ (101 < 32) by decide),
    Option.map_some']
  rw [skipSpace_cons 58 _ (by decide)]
  simp only [if_true]
  rw [parseValue_scalar _ _ 34 _ (by decide) (by decide) (by decide)]
  simp only [parseScalar, if_true, hscan']
  rw [skipSpace_cons 125 _ (by decide)]
  simp [Res.map]

/-- Decoding what `Marshal` writes gives the request back: the same slices
with the same coordinates and the same date. -/
theorem Decode_Marshal (r : PredictRequest) (hr : r.Valid) :
    Decode (Marshal r) = .ok ⟨aoiFresh r.AOI, r.Date⟩ := by
  obtain ⟨raw, hunq, hread⟩ := readValue_Marshal r hr
  have h1 : unquote [97, 111, 105] = some (ascii "aoi") := by decide
  have h2 : unquote [100, 97, 116, 101] = some (ascii "date") := by decide
  have h3 : lookupField (ascii "aoi") = some .aoi := by decide
  have h4 : lookupField (ascii "date") = some .date := by decide
  unfold Decode
  rw [hread]
  simp only [unmarshal, decodeMembers, h1, h2, h3, h4, PredictRequest.zero,
    decodeAOI_astAOI r.AOI hr.1, decodeString, hunq]

theorem decodeElems_isSome {α : Type} (dec : α → Json → Option α) (zero : α)
    (js : List Json) (h : ∀ j ∈ js, ∀ cur, (dec cur j).isSome = true) :
    ∀ slots, (decodeElems dec zero slots js).isSome = true := by
  induction js with
  | nil => intro slots; rfl
  | cons j js ih =>
    intro slots
    rw [decodeElems]
    have h1 := h j (by simp) (slots.headD zero)
    obtain ⟨x, hx⟩ := Option.isSome_iff_exists.mp h1
    rw [hx]
    have h2 := ih (fun j' hj' => h j' (by simp [hj'])) slots.tail
    obtain ⟨p, hp⟩ := Option.isSome_iff_exists.mp h2
    rw [hp]
    rfl

theorem decodeSlice_isSome {α : Type} (dec : α → Json → Option α) (zero : α)
    (elem : Json → Bool) (helem : ∀ j, elem j = true → ∀ cur, (dec cur j).isSome = true)
    (j : Json) (hj : isArrayOf elem j = true) (cur : GoSlice α) :
    (decodeSlice dec zero cur j).isSome = true := by
  cases j with
  | arr js =>
    cases js with
    | nil => rfl
    | cons j0 js =>
      simp only [isArrayOf, List.all_eq_true] at hj
      simp only [decodeSlice, Option.isSome_map']
      exact decodeElems_isSome dec zero (j0 :: js) (fun j' hj' => helem j' (hj j' hj')) _
  | null => simp [isArrayOf] at hj
  | bool b => simp [isArrayOf] at hj
  | num l => simp [isArrayOf] at hj
  | str l => simp [isArrayOf] at hj
  | obj l => simp [isArrayOf] at hj

theorem decodeAOI_isSome (j : Json) (hj : isAOIShape j = true)
    (cur : GoSlice (GoSlice (GoSlice Float64))) : (decodeAOI cur j).isSome = true := by
  have h3 : ∀ j, isCoord j = true → ∀ cur, (decodeFloat cur j).isSome = true := by
    intro j hj cur
    cases j <;> simp_all [isCoord, decodeFloat]
  have h2 := decodeSlice_isSome decodeFloat Float64.zero isCoord h3
  have h1 := decodeSlice_isSome decodeRing .nil (isArrayOf isCoord) h2
  exact decodeSlice_isSome decodePolygon .nil (isArrayOf (isArrayOf isCoord)) h1 j hj cur

theorem decodeMembers_isSome (ms : List (Bytes × Json))
    (h : ms.all memberShaped = true) : ∀ r, (decodeMembers r ms).isSome = true := by
  induction ms with
  | nil => intro r; rfl
  | cons m ms ih =>
    intro r
    obtain ⟨k, v⟩ := m
    simp only [List.all_cons, Bool.and_eq_true] at h
    obtain ⟨hm, hms⟩ := h
    rw [decodeMembers]
    unfold memberShaped at hm
    simp only at hm
    cases hk : unquote k with
    | none => rw [hk] at hm; simp at hm
    | some key =>
      rw [hk] at hm
      simp only at hm ⊢
      cases hl : lookupField key with
      | none => exact ih hms r
      | some fld =>
        rw [hl] at hm
        cases fld with
        | aoi =>
          simp only at hm ⊢
          obtain ⟨a, ha⟩ := Option.isSome_iff_exists.mp (decodeAOI_isSome v hm r.AOI)
          rw [ha]
          exact ih hms _
        | date =>
          simp only at hm ⊢
          cases v with
          | str raw =>
            simp only [isStringLit] at hm
            obtain ⟨d, hd⟩ := Option.isSome_iff_exists.mp hm
            simp only [decodeString, hd]
            exact ih hms _
          | null => simp [isStringLit] at hm
          | bool b => simp [isStringLit] at hm
          | num b => simp [isStringLit] at hm
          | arr b => simp [isStringLit] at hm
          | obj b => simp [isStringLit] at hm

/-- A body whose first value has the request shape is decoded. -/
theorem Decode_of_requestShaped (body : Bytes) (j : Json) (hj : firstValue body = some j)
    (hs : requestShaped j = true) : ∃ req, Decode body = .ok req := by
  unfold firstValue at hj
  unfold Decode
  cases hr : readValue body with
  | invalid => rw [hr] at hj; simp at hj
  | outOfFuel => rw [hr] at hj; simp at hj
  | ok p =>
    obtain ⟨j', rest⟩ := p
    rw [hr] at hj
    simp only [Option.some.injEq] at hj
    subst hj
    cases j' with
    | obj ms =>
      simp only [requestShaped] at hs
      obtain ⟨req, hreq⟩ := Option.isSome_iff_exists.mp
        (decodeMembers_isSome ms hs PredictRequest.zero)
      exact ⟨req, by simp [unmarshal, hreq]⟩
    | null => simp [requestShaped] at hs
    | bool b => simp [requestShaped] at hs
    | num b => simp [requestShaped] at hs
    | str b => simp [requestShaped] at hs
    | arr b => simp [requestShaped] at hs

theorem elems?_fresh {α : Type} (f : α → α) (s : GoSlice α) :
    (s.fresh f).elems? = s.elems?.map fun es => es.map f := by
  cases s <;> rfl

theorem aoiValue_aoiFresh (a : GoSlice (GoSlice (GoSlice Float64))) :
    aoiValue (aoiFresh a) = aoiValue a := by
  simp only [aoiValue, aoiFresh, elems?_fresh, Option.map_map, Function.comp_def,
    List.map_map, List.map_id_fun, id_eq, List.map_id, Option.map_id']

theorem encodeSlice_fresh {α : Type} (enc : α → Bytes) (f : α → α)
    (h : ∀ x, enc (f x) = enc x) (s : GoSlice α) :
    encodeSlice enc (s.fresh f) = encodeSlice enc s := by
  cases s with
  | nil => rfl
  | mk es sp =>
    simp only [GoSlice.fresh, encodeSlice, List.map_map, Function.comp_def, h]

theorem encodeAOI_aoiFresh (a : GoSlice (GoSlice (GoSlice Float64))) :
    encodeAOI (aoiFresh a) = encodeAOI a := by
  unfold encodeAOI aoiFresh
  exact encodeSlice_fresh _ _
    (encodeSlice_fresh _ _ (encodeSlice_fresh _ _ (fun _ => rfl))) a

/-- What `Marshal` writes depends on the value of the request alone. -/
theorem Marshal_aoiFresh (r : PredictRequest) :
    Marshal ⟨aoiFresh r.AOI, r.Date⟩ = Marshal r := by
  simp only [Marshal, encodeAOI_aoiFresh]

theorem sampleBody_decodes : Decode sampleRequest.body = .ok sampleDecoded := by
  decide!

/-! ## The claims -/

/-- C1, as amended: for every request body on which decoding fails (an empty
body, a first value that is not well-formed JSON, a value of the wrong
structure such as a string for `aoi` or a number for `date`), `predictHandler`
answers 400 with the text `Invalid request`, makes no call to the upstream and
logs nothing. -/
theorem predictHandler_undecodable_body (post : Bytes → PostResult) (r : Request)
    (h : ∀ req, Decode r.body ≠ .ok req) :
    (predictHandler post .new r).w.status = 400 ∧
      (predictHandler post .new r).w.body = ascii "Invalid request\n" ∧
      (predictHandler post .new r).calls = [] ∧
      (predictHandler post .new r).log = [] := by
  rw [predictHandler_decode_error post r h, Error_new _ _ (by decide) (by decide)]
  exact ⟨rfl, rfl, rfl, rfl⟩

/-- Witness for C1: the empty body, a string for `aoi` and a number for
`date` are bodies on which decoding fails, and each is answered 400 with no
call to the upstream. -/
theorem predictHandler_undecodable_body_witness :
    (Decode [] = .invalid ∧
      (predictHandler upstream200 .new (requestOf [])).w.status = 400 ∧
      (predictHandler upstream200 .new (requestOf [])).calls = []) ∧
    (Decode (ascii "\x7b\"aoi\":\"polygon\",\"date\":\"2024-07-01\"\x7d") = .invalid ∧
      (predictHandler upstream200 .new
        (requestOf (ascii "\x7b\"aoi\":\"polygon\",\"date\":\"2024-07-01\"\x7d"))).w.status = 400 ∧
      (predictHandler upstream200 .new
        (requestOf (ascii "\x7b\"aoi\":\"polygon\",\"date\":\"2024-07-01\"\x7d"))).calls = []) ∧
    (Decode (ascii "\x7b\"aoi\":[[[76.9,43.2]]],\"date\":20240701\x7d") = .invalid ∧
      (predictHandler upstream200 .new
        (requestOf (ascii "\x7b\"aoi\":[[[76.9,43.2]]],\"date\":20240701\x7d"))).w.status = 400 ∧
      (predictHandler upstream200 .new
        (requestOf (ascii "\x7b\"aoi\":[[[76.9,43.2]]],\"date\":20240701\x7d"))).calls = []) := by
  have h1 : Decode [] = .invalid := by decide!
  have h2 : Decode (ascii "\x7b\"aoi\":\"polygon\",\"date\":\"2024-07-01\"\x7d") = .invalid := by
    decide!
  have h3 : Decode (ascii "\x7b\"aoi\":[[[76.9,43.2]]],\"date\":20240701\x7d") = .invalid := by
    decide!
  refine ⟨⟨h1, ?_⟩, ⟨h2, ?_⟩, ⟨h3, ?_⟩⟩
  · have := predictHandler_undecodable_body upstream200 (requestOf [])
      (by intro req; show Decode [] ≠ _; rw [h1]; simp)
    exact ⟨this.1, this.2.2.1⟩
  · have := predictHandler_undecodable_body upstream200
      (requestOf (ascii "\x7b\"aoi\":\"polygon\",\"date\":\"2024-07-01\"\x7d"))
      (by intro req; show Decode (ascii _) ≠ _; rw [h2]; simp)
    exact ⟨this.1, this.2.2.1⟩
  · have := predictHandler_undecodable_body upstream200
      (requestOf (ascii "\x7b\"aoi\":[[[76.9,43.2]]],\"date\":20240701\x7d"))
      (by intro req; show Decode (ascii _) ≠ _; rw [h3]; simp)
    exact ⟨this.1, this.2.2.1⟩

/-- Counterexample to C1 as stated: a well-formed request followed by bytes
that are not JSON is not answered 400; the request is decoded and forwarded,
one call is made, and the answer is the upstream's. -/
theorem predictHandler_trailing_bytes_accepted :
    (predictHandler upstream200 .new
        (requestOf (sampleBody ++ ascii " %%% not json"))).w.status = 200 ∧
      (predictHandler upstream200 .new
        (requestOf (sampleBody ++ ascii " %%% not json"))).calls = [sampleBody] := by
  decide!

/-- C2, as amended: when the request decodes and the upstream call and the
read of its body succeed, the response has the status code `s` of the upstream
and its body `b`, byte for byte, for every `s` that `WriteHeader` commits as
the status of the response (101, or 200 to 999) and every `b` that the status
admits (`b` is empty when `s` is 101, 204 or 304, for which `Write` accepts no
body). -/
theorem predictHandler_relays_status_and_body (post : Bytes → PostResult) (r : Request)
    (req : PredictRequest) (s : Nat) (b : Bytes)
    (hd : Decode r.body = .ok req) (hp : post (Marshal req) = .response s b none)
    (hs : (s = 101 ∨ 200 ≤ s) ∧ s ≤ 999) (hb : bodyAllowedForStatus s = true ∨ b = []) :
    (predictHandler post .new r).w.panicked = false ∧
      (predictHandler post .new r).w.wroteHeader = true ∧
      (predictHandler post .new r).w.status = s ∧
      (predictHandler post .new r).w.body = b := by
  rw [predictHandler_success post r req s b hd hp hs hb]
  exact ⟨rfl, rfl, rfl, rfl⟩

/-- Witness for C2: an upstream that answers 503 with a body yields 503 with
that body. -/
theorem predictHandler_relays_status_and_body_witness :
    Decode sampleRequest.body = .ok sampleDecoded ∧
      (predictHandler upstream503 .new sampleRequest).w.panicked = false ∧
      (predictHandler upstream503 .new sampleRequest).w.wroteHeader = true ∧
      (predictHandler upstream503 .new sampleRequest).w.status = 503 ∧
      (predictHandler upstream503 .new sampleRequest).w.body = ascii "upstream overloaded" :=
  ⟨sampleBody_decodes,
    predictHandler_relays_status_and_body upstream503 sampleRequest sampleDecoded 503
      (ascii "upstream overloaded") sampleBody_decodes rfl (by decide) (Or.inl (by decide))⟩

/-- Counterexample to C2 as stated: an upstream whose status line carries the
code `099` has neither its status nor its body relayed; `WriteHeader` panics
on the code, no header is written and no body. -/
theorem predictHandler_status_099_not_relayed :
    (predictHandler upstream099 .new sampleRequest).w.panicked = true ∧
      (predictHandler upstream099 .new sampleRequest).w.wroteHeader = false ∧
      (predictHandler upstream099 .new sampleRequest).w.status ≠ 99 ∧
      (predictHandler upstream099 .new sampleRequest).w.body ≠ ascii "odd" := by
  rw [predictHandler_bad_status upstream099 sampleRequest sampleDecoded 99 _
    sampleBody_decodes rfl (by decide)]
  exact ⟨rfl, rfl, by decide, by decide⟩

/-- C3, the code at the failing input: with an upstream that answers 200 and
`{"probability":0.73,"message":"high risk"}`, the header map holds no
`Content-Type` when `WriteHeader` commits the status line; the header is set
on the map only afterwards, and is not sent; the client is sent the content
type the server sniffs from the body, `text/plain`. -/
theorem predictHandler_content_type_set_too_late :
    (predictHandler upstream200 .new sampleRequest).w.status = 200 ∧
      (predictHandler upstream200 .new sampleRequest).w.sent.Get "Content-Type" = none ∧
      (predictHandler upstream200 .new sampleRequest).w.contentType ≠
        some "application/json" ∧
      (predictHandler upstream200 .new sampleRequest).w.header.Get "Content-Type" =
        some "application/json" ∧
      (predictHandler upstream200 .new sampleRequest).w.contentType =
        some "text/plain; charset=utf-8" := by
  rw [predictHandler_success upstream200 sampleRequest sampleDecoded 200 _ sampleBody_decodes rfl
    (by decide) (Or.inl (by decide))]
  exact ⟨rfl, rfl, by decide!, rfl, by decide!⟩

/-- C4: when the request decodes and the upstream call fails at the transport
level with error `e`, the response is 500 with a body that contains the text
of `e`, which is not empty; the failure is logged once, one call was made,
and nothing of an upstream response is written. -/
theorem predictHandler_transport_failure (post : Bytes → PostResult) (r : Request)
    (req : PredictRequest) (e : UrlError)
    (hd : Decode r.body = .ok req) (hp : post (Marshal req) = .transportError e) :
    (predictHandler post .new r).w.status = 500 ∧
      (predictHandler post .new r).w.body =
        ascii "Prediction service error: " ++ e.Error ++ [10] ∧
      e.Error ≠ [] ∧
      e.Error <:+: (predictHandler post .new r).w.body ∧
      (predictHandler post .new r).log = [e.Error] ∧
      (predictHandler post .new r).calls = [Marshal req] := by
  rw [predictHandler_transport_error post r req e hd hp, Error_new _ _ (by decide) (by decide)]
  refine ⟨rfl, rfl, e.Error_ne_nil, ?_, rfl, rfl⟩
  exact ⟨ascii "Prediction service error: ", [10], by simp⟩

/-- Witness for C4: a refused connection. -/
theorem predictHandler_transport_failure_witness :
    (predictHandler upstreamRefused .new sampleRequest).w.status = 500 ∧
      (predictHandler upstreamRefused .new sampleRequest).w.body =
        ascii ("Prediction service error: Post \"http://127.0.0.1:9/predict\": " ++
          "dial tcp 127.0.0.1:9: connect: connection refused\n") ∧
      (predictHandler upstreamRefused .new sampleRequest).log.length = 1 := by
  have h := predictHandler_transport_failure upstreamRefused sampleRequest sampleDecoded
    ⟨ascii "Post", ascii "\"http://127.0.0.1:9/predict\"",
      ascii "dial tcp 127.0.0.1:9: connect: connection refused"⟩ sampleBody_decodes rfl
  refine ⟨h.1, ?_, ?_⟩
  · rw [h.2.1]; decide
  · rw [h.2.2.2.2.1]; rfl

/-- C5, as amended: when the upstream call succeeds but reading the upstream
body fails, the response the caller observes is that of the read-failure
path: status 500 with content type `text/plain; charset=utf-8` and a body that
begins with the error message.  The later `WriteHeader` and the later
`Content-Type` do not override them. -/
theorem predictHandler_read_failure (post : Bytes → PostResult) (r : Request)
    (req : PredictRequest) (s : Nat) (b e : Bytes)
    (hd : Decode r.body = .ok req) (hp : post (Marshal req) = .response s b (some e)) :
    (predictHandler post .new r).w.status = 500 ∧
      (predictHandler post .new r).w.sent.Get "Content-Type" =
        some "text/plain; charset=utf-8" ∧
      (ascii "Prediction service error: " ++ e ++ [10]) <+:
        (predictHandler post .new r).w.body := by
  rw [predictHandler_read_error post r req s b e hd hp]
  exact ⟨rfl, rfl, ⟨b, rfl⟩⟩

/-- Witness for C5: a response body that breaks off. -/
theorem predictHandler_read_failure_witness :
    (predictHandler upstreamCut .new sampleRequest).w.status = 500 ∧
      (predictHandler upstreamCut .new sampleRequest).w.sent.Get "Content-Type" =
        some "text/plain; charset=utf-8" ∧
      (ascii "Prediction service error: " ++ ascii "unexpected EOF" ++ [10]) <+:
        (predictHandler upstreamCut .new sampleRequest).w.body :=
  predictHandler_read_failure upstreamCut sampleRequest sampleDecoded 200
    (ascii "\x7b\"proba") (ascii "unexpected EOF") sampleBody_decodes rfl

/-- Counterexample to C5 as stated: on a failed read of the upstream body the
caller does not observe status 200 with content type `application/json`. -/
theorem predictHandler_read_failure_not_200 :
    ¬ ((predictHandler upstreamCut .new sampleRequest).w.status = 200 ∧
        (predictHandler upstreamCut .new sampleRequest).w.sent.Get "Content-Type" =
          some "application/json") := by
  rw [predictHandler_read_error upstreamCut sampleRequest sampleDecoded 200 _ _
    sampleBody_decodes rfl]
  decide

theorem Decode_of_bodyShaped (body : Bytes) (h : bodyShaped body = true) :
    ∃ req, Decode body = .ok req := by
  unfold bodyShaped at h
  cases hj : firstValue body with
  | none => rw [hj] at h; simp at h
  | some j => rw [hj] at h; exact Decode_of_requestShaped body j hj h

theorem Decode_round_trip (req : PredictRequest) (hv : req.Valid) :
    ∃ req2, Decode (Marshal req) = .ok req2 ∧ req2.value = req.value :=
  ⟨⟨aoiFresh req.AOI, req.Date⟩, Decode_Marshal req hv, by
    simp only [PredictRequest.value, aoiValue_aoiFresh]⟩

/-- C6, as amended: for every body whose first value has the request shape
(an object whose `aoi`, where present, is an array of arrays of arrays of
numbers within the range of `float64`, and whose `date`, where present, is a
string), `predictHandler` issues exactly one outbound call, and the body of
that call decodes to a request of the same value as the decoded input: the
same nesting, order and coordinates of `aoi` and the same `date`. -/
theorem predictHandler_round_trip (post : Bytes → PostResult) (r : Request)
    (h : bodyShaped r.body = true) :
    ∃ req, Decode r.body = .ok req ∧
      (predictHandler post .new r).calls = [Marshal req] ∧
      ∃ req2, Decode (Marshal req) = .ok req2 ∧ req2.value = req.value := by
  obtain ⟨req, hd⟩ := Decode_of_bodyShaped r.body h
  exact ⟨req, hd, (predictHandler_log_calls post r req hd).1,
    Decode_round_trip req (Decode_valid r.body req hd)⟩

/-- Witness for C6: the sample request. -/
theorem predictHandler_round_trip_witness :
    bodyShaped sampleRequest.body = true ∧
      ∃ req, Decode sampleRequest.body = .ok req ∧
        (predictHandler upstream200 .new sampleRequest).calls = [Marshal req] ∧
        ∃ req2, Decode (Marshal req) = .ok req2 ∧ req2.value = req.value :=
  ⟨by decide!, predictHandler_round_trip upstream200 sampleRequest (by decide!)⟩

/-- Counterexample to C6 as stated: a syntactically valid body of the request
shape with the coordinate `1e400` is answered 400 and no outbound call is
made. -/
theorem predictHandler_huge_coordinate_rejected :
    (firstValue hugeBody).isSome = true ∧
      (predictHandler upstream200 .new (requestOf hugeBody)).w.status = 400 ∧
      (predictHandler upstream200 .new (requestOf hugeBody)).calls = [] := by
  decide!

/-- C7, as amended: for every request body that `predictHandler` accepts, the
body it sends to the upstream is the encoding `Marshal req` of the decoded
request, not the inbound bytes; that encoding decodes again, and encoding what
it decodes to gives the same bytes. -/
theorem predictHandler_forwards_encoding (post : Bytes → PostResult) (r : Request)
    (req : PredictRequest) (hd : Decode r.body = .ok req) :
    (predictHandler post .new r).calls = [Marshal req] ∧
      ∃ req2, Decode (Marshal req) = .ok req2 ∧ Marshal req2 = Marshal req :=
  ⟨(predictHandler_log_calls post r req hd).1,
    ⟨aoiFresh req.AOI, req.Date⟩, Decode_Marshal req (Decode_valid r.body req hd),
    Marshal_aoiFresh req⟩

/-- Witness for C7: the sample request, which is in the form `Marshal` writes,
is forwarded as it came. -/
theorem predictHandler_forwards_encoding_witness :
    Decode sampleRequest.body = .ok sampleDecoded ∧
      (predictHandler upstream200 .new sampleRequest).calls = [sampleBody] := by
  refine ⟨sampleBody_decodes, ?_⟩
  rw [(predictHandler_forwards_encoding upstream200 sampleRequest sampleDecoded
    sampleBody_decodes).1]
  decide!

/-- Counterexample to C7 as stated: an accepted body with white space, another
member order, longer number forms and an unknown member is not forwarded
verbatim. -/
theorem predictHandler_body_reencoded :
    (predictHandler upstream200 .new (requestOf looseBody)).calls =
        [ascii "\x7b\"aoi\":[[[1,2.5]]],\"date\":\"2024-07-01\"\x7d"] ∧
      (predictHandler upstream200 .new (requestOf looseBody)).calls ≠ [looseBody] := by
  decide!

/-- C8: for every two requests `homeHandler` writes the same response: status
200, sniffed as HTML, with the template text as its body. -/
theorem homeHandler_constant (r1 r2 : Request) :
    homeHandler .new r1 = homeHandler .new r2 ∧
      (homeHandler .new r1).status = 200 ∧
      (homeHandler .new r1).body = ascii tmpl ∧
      (homeHandler .new r1).contentType = some "text/html; charset=utf-8" := by
  have h : ∀ r, homeHandler .new r = ⟨[], true, 200, [], ascii tmpl, [], false, []⟩ := by
    intro r
    have ha : hasAction (ascii tmpl) = false := by decide!
    have hp : templateParse (ascii tmpl) = some ⟨ascii tmpl⟩ := by
      unfold templateParse
      rw [ha]
      rfl
    have hne : ascii tmpl ≠ [] := by decide!
    unfold homeHandler
    rw [hp]
    simp only [Template.Execute, if_neg hne]
    rfl
  rw [h r1, h r2]
  refine ⟨rfl, rfl, rfl, ?_⟩
  decide!

end Proxy
